import Mathlib

/-!
Verification of the streaming protocol-translation gateway (`server.js`).

Strings from the JavaScript source are embedded as `List Char` (written
`Str` below); JavaScript objects produced by `JSON.parse` are embedded as
the inductive type `Json`.  All definitions are translated from the
source; each definition's doc comment names the source function it embeds.
-/

/-- JavaScript strings are modelled as lists of characters. -/
abbrev Str := List Char

namespace Gateway

/-- Whitespace characters recognised by `String.prototype.trim` and the
regex class `\s` (the common ASCII subset). -/
def isWsChar (c : Char) : Bool :=
  c = ' ' || c = '\t' || c = '\n' || c = '\r' || c = '\x0b' || c = '\x0c'

/-- Model of `s.trim()`: drop whitespace from both ends. -/
def jsTrim (s : Str) : Str :=
  ((s.dropWhile isWsChar).reverse.dropWhile isWsChar).reverse

/-- Model of `s.toLowerCase()` (ASCII case folding suffices here). -/
def jsLower (s : Str) : Str := s.map Char.toLower

/-- First index at or after `i` where `pat` occurs in `s` starting from the
suffix `rest` of `s`; helper for `indexOfSub`. -/
def indexOfSubAux (pat : Str) : Str → Nat → Option Nat
  | [], i => if pat = [] then some i else none
  | c :: rest, i =>
    if pat.isPrefixOf (c :: rest) then some i
    else indexOfSubAux pat rest (i + 1)

/-- Model of `s.indexOf(pat)` returning `none` for `-1`. -/
def indexOfSub (s pat : Str) : Option Nat :=
  indexOfSubAux pat s 0

/-- Model of `s.substring(a, b)` for `a ≤ b ≤ s.length`. -/
def substringList (s : Str) (a b : Nat) : Str :=
  (s.drop a).take (b - a)

/-- Model of `s.split('\n')`: the resulting list is never empty and the
last element is the trailing fragment after the final newline. -/
def splitOnNl : Str → List Str
  | [] => [[]]
  | c :: rest =>
    if c = '\n' then [] :: splitOnNl rest
    else
      match splitOnNl rest with
      | [] => [[c]]
      | p :: ps => (c :: p) :: ps

/-- Fuel-indexed slicing loop; helper for `chunksOf`. -/
def chunksOfGo (n : Nat) : Nat → Str → List Str
  | _, [] => []
  | 0, c :: rest => [c :: rest]
  | fuel + 1, c :: rest =>
    if n = 0 then [c :: rest]
    else (c :: rest).take n :: chunksOfGo n fuel ((c :: rest).drop n)

/-- Slices of length `n` (the last possibly shorter), as produced by the
`for (let i = 0; i < args.length; i += chunkSize)` loop; the fuel is
the string length, which the loop can never exceed. -/
def chunksOf (n : Nat) (s : Str) : List Str := chunksOfGo n s.length s

/-- JavaScript values produced by `JSON.parse`.  Numbers keep their source
literal (the gateway never does numeric arithmetic on parsed numbers; it
only tests them against zero). -/
inductive Json where
  | null : Json
  | bool (b : Bool) : Json
  | num (lit : Str) : Json
  | str (s : Str) : Json
  | arr (elems : List Json) : Json
  | obj (fields : List (Str × Json)) : Json
deriving Repr

mutual

/-- Decidable equality for `Json` (the derive handler does not support
nested inductives). -/
def jsonDecEq : (a b : Json) → Decidable (a = b)
  | .null, .null => isTrue rfl
  | .null, .bool _ => isFalse (fun h => Json.noConfusion h)
  | .null, .num _ => isFalse (fun h => Json.noConfusion h)
  | .null, .str _ => isFalse (fun h => Json.noConfusion h)
  | .null, .arr _ => isFalse (fun h => Json.noConfusion h)
  | .null, .obj _ => isFalse (fun h => Json.noConfusion h)
  | .bool _, .null => isFalse (fun h => Json.noConfusion h)
  | .bool x, .bool y =>
    match decEq x y with
    | isTrue h => isTrue (by rw [h])
    | isFalse h => isFalse (fun hh => h (Json.bool.inj hh))
  | .bool _, .num _ => isFalse (fun h => Json.noConfusion h)
  | .bool _, .str _ => isFalse (fun h => Json.noConfusion h)
  | .bool _, .arr _ => isFalse (fun h => Json.noConfusion h)
  | .bool _, .obj _ => isFalse (fun h => Json.noConfusion h)
  | .num _, .null => isFalse (fun h => Json.noConfusion h)
  | .num _, .bool _ => isFalse (fun h => Json.noConfusion h)
  | .num x, .num y =>
    match decEq x y with
    | isTrue h => isTrue (by rw [h])
    | isFalse h => isFalse (fun hh => h (Json.num.inj hh))
  | .num _, .str _ => isFalse (fun h => Json.noConfusion h)
  | .num _, .arr _ => isFalse (fun h => Json.noConfusion h)
  | .num _, .obj _ => isFalse (fun h => Json.noConfusion h)
  | .str _, .null => isFalse (fun h => Json.noConfusion h)
  | .str _, .bool _ => isFalse (fun h => Json.noConfusion h)
  | .str _, .num _ => isFalse (fun h => Json.noConfusion h)
  | .str x, .str y =>
    match decEq x y with
    | isTrue h => isTrue (by rw [h])
    | isFalse h => isFalse (fun hh => h (Json.str.inj hh))
  | .str _, .arr _ => isFalse (fun h => Json.noConfusion h)
  | .str _, .obj _ => isFalse (fun h => Json.noConfusion h)
  | .arr _, .null => isFalse (fun h => Json.noConfusion h)
  | .arr _, .bool _ => isFalse (fun h => Json.noConfusion h)
  | .arr _, .num _ => isFalse (fun h => Json.noConfusion h)
  | .arr _, .str _ => isFalse (fun h => Json.noConfusion h)
  | .arr xs, .arr ys =>
    match jsonListDecEq xs ys with
    | isTrue h => isTrue (by rw [h])
    | isFalse h => isFalse (fun hh => h (Json.arr.inj hh))
  | .arr _, .obj _ => isFalse (fun h => Json.noConfusion h)
  | .obj _, .null => isFalse (fun h => Json.noConfusion h)
  | .obj _, .bool _ => isFalse (fun h => Json.noConfusion h)
  | .obj _, .num _ => isFalse (fun h => Json.noConfusion h)
  | .obj _, .str _ => isFalse (fun h => Json.noConfusion h)
  | .obj _, .arr _ => isFalse (fun h => Json.noConfusion h)
  | .obj xs, .obj ys =>
    match jsonFieldsDecEq xs ys with
    | isTrue h => isTrue (by rw [h])
    | isFalse h => isFalse (fun hh => h (Json.obj.inj hh))

/-- Decidable equality for lists of `Json`. -/
def jsonListDecEq : (a b : List Json) → Decidable (a = b)
  | [], [] => isTrue rfl
  | [], _ :: _ => isFalse (fun h => List.noConfusion h)
  | _ :: _, [] => isFalse (fun h => List.noConfusion h)
  | x :: xs, y :: ys =>
    match jsonDecEq x y, jsonListDecEq xs ys with
    | isTrue h1, isTrue h2 => isTrue (by rw [h1, h2])
    | isFalse h1, _ => isFalse (fun hh => h1 (List.cons.inj hh).1)
    | _, isFalse h2 => isFalse (fun hh => h2 (List.cons.inj hh).2)

/-- Decidable equality for lists of object members. -/
def jsonFieldsDecEq : (a b : List (Str × Json)) → Decidable (a = b)
  | [], [] => isTrue rfl
  | [], _ :: _ => isFalse (fun h => List.noConfusion h)
  | _ :: _, [] => isFalse (fun h => List.noConfusion h)
  | (k, v) :: xs, (k', v') :: ys =>
    match decEq k k', jsonDecEq v v', jsonFieldsDecEq xs ys with
    | isTrue h0, isTrue h1, isTrue h2 => isTrue (by rw [h0, h1, h2])
    | isFalse h0, _, _ =>
      isFalse (fun hh => h0 (congrArg Prod.fst (List.cons.inj hh).1))
    | _, isFalse h1, _ =>
      isFalse (fun hh => h1 (congrArg Prod.snd (List.cons.inj hh).1))
    | _, _, isFalse h2 => isFalse (fun hh => h2 (List.cons.inj hh).2)

end

instance : DecidableEq Json := jsonDecEq

/-- A numeric literal denotes zero iff every mantissa digit is `0`
(`0`, `-0`, `0.00`, `0e5`, ...). -/
def numIsZero (lit : Str) : Bool :=
  let mantissa := lit.takeWhile (fun c => c ≠ 'e' ∧ c ≠ 'E')
  (mantissa.filter Char.isDigit).all (· = '0')

/-- JavaScript truthiness of a parsed JSON value. -/
def jsTruthy : Json → Bool
  | .null => false
  | .bool b => b
  | .num lit => !numIsZero lit
  | .str s => !s.isEmpty
  | .arr _ => true
  | .obj _ => true

/-- Property access `v[key]` on a parsed value: `none` models
`undefined` (also for access on non-objects, as with `x?.k`).  Later
duplicate keys win, matching `JSON.parse`. -/
def objGet : Json → Str → Option Json
  | .obj fields, k =>
    match fields.reverse.find? (fun kv => kv.1 = k) with
    | some kv => some kv.2
    | none => none
  | _, _ => none

/-- Hex digit for `\u00XX` escapes. -/
def hexDigit (n : Nat) : Char :=
  if n < 10 then Char.ofNat ('0'.toNat + n) else Char.ofNat ('a'.toNat + n - 10)

/-- Escaping of one character inside a JSON string literal, as done by
`JSON.stringify`. -/
def escChar (c : Char) : Str :=
  if c = '"' then ['\\', '"']
  else if c = '\\' then ['\\', '\\']
  else if c = '\n' then ['\\', 'n']
  else if c = '\t' then ['\\', 't']
  else if c = '\r' then ['\\', 'r']
  else if c = '\x08' then ['\\', 'b']
  else if c = '\x0c' then ['\\', 'f']
  else if c.toNat < 32 then
    ['\\', 'u', '0', '0', hexDigit (c.toNat / 16), hexDigit (c.toNat % 16)]
  else [c]

/-- Escaped body of a JSON string literal. -/
def escStr (s : Str) : Str := s.flatMap escChar

mutual

/-- Model of `JSON.stringify` on parsed values (canonical rendering; a
number is rendered as its retained literal). -/
def jsonRender : Json → Str
  | .null => 'n' :: 'u' :: 'l' :: 'l' :: []
  | .bool true => 't' :: 'r' :: 'u' :: 'e' :: []
  | .bool false => 'f' :: 'a' :: 'l' :: 's' :: 'e' :: []
  | .num lit => lit
  | .str s => '"' :: escStr s ++ ['"']
  | .arr es => '[' :: renderElems es ++ [']']
  | .obj fs => '{' :: renderFields fs ++ ['}']

/-- Comma-separated rendering of array elements. -/
def renderElems : List Json → Str
  | [] => []
  | [e] => jsonRender e
  | e :: e' :: rest => jsonRender e ++ ',' :: renderElems (e' :: rest)

/-- Comma-separated rendering of object members. -/
def renderFields : List (Str × Json) → Str
  | [] => []
  | [kv] => '"' :: escStr kv.1 ++ '"' :: ':' :: jsonRender kv.2
  | kv :: kv' :: rest =>
    ('"' :: escStr kv.1 ++ '"' :: ':' :: jsonRender kv.2) ++ ',' :: renderFields (kv' :: rest)

end

/-- Leading whitespace removal used by the JSON parser. -/
def skipWs (s : Str) : Str := s.dropWhile isWsChar

/-- Value of a hex digit, if any. -/
def hexVal (c : Char) : Option Nat :=
  if '0' ≤ c ∧ c ≤ '9' then some (c.toNat - '0'.toNat)
  else if 'a' ≤ c ∧ c ≤ 'f' then some (c.toNat - 'a'.toNat + 10)
  else if 'A' ≤ c ∧ c ≤ 'F' then some (c.toNat - 'A'.toNat + 10)
  else none

/-- Single-character JSON escapes accepted by `JSON.parse`. -/
def escSimple (c : Char) : Option Char :=
  if c = '"' then some '"'
  else if c = '\\' then some '\\'
  else if c = '/' then some '/'
  else if c = 'b' then some '\x08'
  else if c = 'f' then some '\x0c'
  else if c = 'n' then some '\n'
  else if c = 'r' then some '\r'
  else if c = 't' then some '\t'
  else none

/-- Parse the body of a JSON string literal (after the opening quote),
returning the decoded content and the remainder after the closing quote. -/
def parseStringBody : Str → Option (Str × Str)
  | [] => none
  | c :: rest =>
    if c = '"' then some ([], rest)
    else if c = '\\' then
      match rest with
      | [] => none
      | e :: rest2 =>
        if e = 'u' then
          match rest2 with
          | h1 :: h2 :: h3 :: h4 :: rest3 =>
            match hexVal h1, hexVal h2, hexVal h3, hexVal h4 with
            | some a, some b, some c3, some d =>
              (parseStringBody rest3).map
                (fun pr => (Char.ofNat (((a * 16 + b) * 16 + c3) * 16 + d) :: pr.1, pr.2))
            | _, _, _, _ => none
          | _ => none
        else
          match escSimple e with
          | some ch => (parseStringBody rest2).map (fun pr => (ch :: pr.1, pr.2))
          | none => none
    else (parseStringBody rest).map (fun pr => (c :: pr.1, pr.2))

/-- Lex a JSON numeric literal, returning the literal and the remainder. -/
def lexNumber (s : Str) : Option (Str × Str) :=
  let (sign, s1) := match s with
    | '-' :: rest => (['-'], rest)
    | _ => (([] : Str), s)
  match s1 with
  | [] => none
  | c :: rest =>
    if c = '0' then
      let (frac, s2) := lexFrac rest
      match frac with
      | some f => some (sign ++ '0' :: f, s2)
      | none => none
    else if c.isDigit then
      let ds := rest.takeWhile Char.isDigit
      let s2 := rest.dropWhile Char.isDigit
      let (frac, s3) := lexFrac s2
      match frac with
      | some f => some (sign ++ c :: ds ++ f, s3)
      | none => none
    else none
where
  /-- Optional fraction and exponent; `none` marks a malformed tail. -/
  lexFrac (s : Str) : Option Str × Str :=
    let (fr, s1) : Str × Str := match s with
      | '.' :: rest =>
        ('.' :: rest.takeWhile Char.isDigit, rest.dropWhile Char.isDigit)
      | _ => ([], s)
    if fr = ['.'] then (none, s1)
    else match s1 with
      | c :: rest =>
        if c = 'e' ∨ c = 'E' then
          let (es, rest1) : Str × Str := match rest with
            | '+' :: r => (['+'], r)
            | '-' :: r => (['-'], r)
            | _ => ([], rest)
          let ds := rest1.takeWhile Char.isDigit
          if ds = [] then (none, rest1)
          else (some (fr ++ c :: es ++ ds), rest1.dropWhile Char.isDigit)
        else (some fr, s1)
      | [] => (some fr, s1)

mutual

/-- Fuel-indexed model of `JSON.parse` on a value; returns the value and
the unconsumed remainder. -/
def parseValue : Nat → Str → Option (Json × Str)
  | 0, _ => none
  | fuel + 1, s =>
    match skipWs s with
    | [] => none
    | c :: rest =>
      if c = 'n' then
        if ['u', 'l', 'l'].isPrefixOf rest then some (.null, rest.drop 3) else none
      else if c = 't' then
        if ['r', 'u', 'e'].isPrefixOf rest then some (.bool true, rest.drop 3) else none
      else if c = 'f' then
        if ['a', 'l', 's', 'e'].isPrefixOf rest then some (.bool false, rest.drop 4) else none
      else if c = '"' then
        (parseStringBody rest).map (fun pr => (.str pr.1, pr.2))
      else if c = '{' then
        match skipWs rest with
        | '}' :: rest2 => some (.obj [], rest2)
        | s2 => (parseMembers fuel s2).map (fun pr => (.obj pr.1, pr.2))
      else if c = '[' then
        match skipWs rest with
        | ']' :: rest2 => some (.arr [], rest2)
        | s2 => (parseElems fuel s2).map (fun pr => (.arr pr.1, pr.2))
      else
        match lexNumber (c :: rest) with
        | some (lit, r) => some (.num lit, r)
        | none => none

/-- Members of a non-empty JSON object (positioned at a key). -/
def parseMembers : Nat → Str → Option (List (Str × Json) × Str)
  | 0, _ => none
  | fuel + 1, s =>
    match s with
    | '"' :: rest =>
      match parseStringBody rest with
      | some (k, r1) =>
        match skipWs r1 with
        | ':' :: r2 =>
          match parseValue fuel r2 with
          | some (v, r3) =>
            match skipWs r3 with
            | ',' :: r4 =>
              (parseMembers fuel (skipWs r4)).map (fun pr => ((k, v) :: pr.1, pr.2))
            | '}' :: r4 => some ([(k, v)], r4)
            | _ => none
          | none => none
        | _ => none
      | none => none
    | _ => none

/-- Elements of a non-empty JSON array (positioned at a value). -/
def parseElems : Nat → Str → Option (List Json × Str)
  | 0, _ => none
  | fuel + 1, s =>
    match parseValue fuel s with
    | some (v, r1) =>
      match skipWs r1 with
      | ',' :: r2 => (parseElems fuel r2).map (fun pr => (v :: pr.1, pr.2))
      | ']' :: r2 => some ([v], r2)
      | _ => none
    | none => none

end

/-- Model of `JSON.parse(s)`: parse one value and require only trailing
whitespace; `none` models a thrown `SyntaxError`. -/
def jsonParse (s : Str) : Option Json :=
  match parseValue (s.length + 1) s with
  | some (v, rest) => if skipWs rest = [] then some v else none
  | none => none

mutual

/-- JavaScript `String(v)` coercion for parsed values (used by template
literals and `+=` on strings). -/
def jsToStr : Json → Str
  | .null => "null".data
  | .bool true => "true".data
  | .bool false => "false".data
  | .num lit => lit
  | .str s => s
  | .arr es => jsToStrElems es
  | .obj _ => "[object Object]".data

/-- `Array.prototype.toString`: elements joined by commas, `null`
rendered as the empty string. -/
def jsToStrElems : List Json → Str
  | [] => []
  | [.null] => []
  | [e] => jsToStr e
  | .null :: e2 :: rest => ',' :: jsToStrElems (e2 :: rest)
  | e :: e2 :: rest => jsToStr e ++ ',' :: jsToStrElems (e2 :: rest)

end

/-- Loop body of `extractBalancedJson` (`server.js:463-500`): walk the
remaining characters with the current index `i`, brace `depth`, string
and escape flags and the recorded object `start` (`-1` when unset);
returns the `substring` bounds on success. -/
def ebjGo : Str → Nat → Int → Bool → Bool → Int → Option (Int × Nat)
  | [], _, _, _, _, _ => none
  | c :: rest, i, depth, inString, escape, start =>
    if escape then ebjGo rest (i + 1) depth inString false start
    else if c = '\\' then ebjGo rest (i + 1) depth inString true start
    else if c = '"' ∧ escape = false then ebjGo rest (i + 1) depth (!inString) escape start
    else if inString then ebjGo rest (i + 1) depth inString escape start
    else if c = '{' then
      ebjGo rest (i + 1) (depth + 1) inString escape (if depth = 0 then (i : Int) else start)
    else if c = '}' then
      if depth - 1 = 0 ∧ start ≠ -1 then some (start, i + 1)
      else ebjGo rest (i + 1) (depth - 1) inString escape start
    else ebjGo rest (i + 1) depth inString escape start

/-- Model of `extractBalancedJson(str, startIdx)` (`server.js:463-500`):
scan forward from `startIdx` tracking brace depth outside string
literals and return the balanced object substring, or `none` for the
source's `null`. -/
def extractBalancedJson (str : Str) (startIdx : Nat) : Option Str :=
  match ebjGo (str.drop startIdx) startIdx 0 false false (-1) with
  | some (st, stop) => some (substringList str st.toNat stop)
  | none => none

/-- A normalized tool-call descriptor as produced by `parseToolCalls`
(`{id, type, function: {name, arguments}}` flattened). -/
structure ToolCall where
  id : Json
  type : Json
  name : Option Json
  arguments : Str
deriving DecidableEq, Repr

/-- JavaScript `a || dflt` on a possibly-undefined value. -/
def jsOrJ (a : Option Json) (dflt : Json) : Json :=
  match a with
  | some v => if jsTruthy v then v else dflt
  | none => dflt

/-- The backward walk `while (startIdx > 0 && content[startIdx] !== '{')
startIdx--` from `parseToolCalls`. -/
def walkBack (content : Str) : Nat → Nat
  | 0 => 0
  | i + 1 => if content.get? (i + 1) = some '{' then i + 1 else walkBack content i

/-- Normalization of one candidate call object, shared verbatim by
detection strategies 1 and 2 of `parseToolCalls` (`server.js:526-535`):
`id` and `type` defaulted, name from `function.name || name`, arguments kept
verbatim when a string and otherwise `JSON.stringify`-serialized with
`{}` fallback. -/
def normalizeTc (g : Nat → Str) (idx : Nat) (tc : Json) : ToolCall :=
  let fArgs := (objGet tc "function".data).bind (objGet · "arguments".data)
  let fName := (objGet tc "function".data).bind (objGet · "name".data)
  { id := jsOrJ (objGet tc "id".data) (.str (g idx))
    type := jsOrJ (objGet tc "type".data) (.str "function".data)
    name :=
      match fName with
      | some v => if jsTruthy v then some v else objGet tc "name".data
      | none => objGet tc "name".data
    arguments :=
      match fArgs with
      | some (.str s) => s
      | other => jsonRender (jsOrJ other (jsOrJ (objGet tc "arguments".data) (.obj []))) }

/-- Detection strategy 1 of `parseToolCalls`: locate the literal
`"tool_calls"`, walk back to the nearest `{`, extract the balanced
object, parse it and accept an array-valued `tool_calls` member. -/
def strategy1 (g : Nat → Str) (content : Str) : Option (List ToolCall) :=
  match indexOfSub content "\"tool_calls\"".data with
  | none => none
  | some idx =>
    if content.get? (walkBack content idx) = some '{' then
      match extractBalancedJson content (walkBack content idx) with
      | some jsonStr =>
        match jsonParse jsonStr with
        | some parsed =>
          match objGet parsed "tool_calls".data with
          | some (.arr tcs) => some (tcs.mapIdx (fun i tc => normalizeTc g i tc))
          | _ => none
        | none => none
      | none => none
    else none

/-- The matched body of the first code fence, modelling the regex
`/(three backticks)(?:json)?\s*([\s\S]*?)(three backticks)/i`. -/
def codeFenceBody (content : Str) : Option Str :=
  match indexOfSub content "```".data with
  | none => none
  | some i0 =>
    let r0 := content.drop (i0 + 3)
    let r1 := if jsLower (r0.take 4) = "json".data then r0.drop 4 else r0
    let r2 := r1.dropWhile isWsChar
    match indexOfSub r2 "```".data with
    | some j => some (r2.take j)
    | none => none

/-- Detection strategy 2 of `parseToolCalls`: parse the trimmed body of
a code fence and accept an array-valued `tool_calls` member. -/
def strategy2 (g : Nat → Str) (content : Str) : Option (List ToolCall) :=
  match codeFenceBody content with
  | some body =>
    match jsonParse (jsTrim body) with
    | some parsed =>
      match objGet parsed "tool_calls".data with
      | some (.arr tcs) => some (tcs.mapIdx (fun i tc => normalizeTc g i tc))
      | _ => none
    | none => none
  | none => none

/-- Consume an expected literal. -/
def expectLit (lit : Str) (s : Str) : Option Str :=
  if lit.isPrefixOf s then some (s.drop lit.length) else none

/-- Whether the regex
`/\x7b\s*"name"\s*:\s*"([^"]+)"\s*,\s*"arguments"\s*:/` matches at the
head of `s`. -/
def matchSingleAt (s : Str) : Bool :=
  (do
    let r0 ← expectLit "\x7b".data s
    let r1 ← expectLit "\"name\"".data (r0.dropWhile isWsChar)
    let r2 ← expectLit ":".data (r1.dropWhile isWsChar)
    let r3 ← expectLit "\"".data (r2.dropWhile isWsChar)
    let nm := r3.takeWhile (· ≠ '"')
    if nm = [] then none else
    let r4 ← expectLit "\"".data (r3.drop nm.length)
    let r5 ← expectLit ",".data (r4.dropWhile isWsChar)
    let r6 ← expectLit "\"arguments\"".data (r5.dropWhile isWsChar)
    let _ ← expectLit ":".data (r6.dropWhile isWsChar)
    pure ()).isSome

/-- Leftmost index at which a predicate on suffixes holds (the position
of the first regex match). -/
def findMatchIdxAux (p : Str → Bool) : Str → Nat → Option Nat
  | [], i => if p [] then some i else none
  | c :: rest, i => if p (c :: rest) then some i else findMatchIdxAux p rest (i + 1)

/-- Detection strategy 3 of `parseToolCalls`: a single bare
`{"name": ..., "arguments": ...}` call object. -/
def strategy3 (g : Nat → Str) (content : Str) : Option (List ToolCall) :=
  match findMatchIdxAux matchSingleAt content 0 with
  | some startIdx =>
    match extractBalancedJson content startIdx with
    | some jsonStr =>
      match jsonParse jsonStr with
      | some parsed =>
        some [{ id := .str (g 0)
                type := .str "function".data
                name := objGet parsed "name".data
                arguments :=
                  match objGet parsed "arguments".data with
                  | some (.str s) => s
                  | other => jsonRender (jsOrJ other (.obj [])) }]
      | none => none
    | none => none
  | none => none

/-- Model of `parseToolCalls(content)` (`server.js:506-594`): the three
detection strategies in order; `g` supplies the generated identifiers
(`call_` + random bytes in the source). -/
def parseToolCalls (g : Nat → Str) (content : Str) : Option (List ToolCall) :=
  if content = [] then none
  else
    match strategy1 g content with
    | some r => some r
    | none =>
      match strategy2 g content with
      | some r => some r
      | none => strategy3 g content

/-- Model of `looksLikeToolCall(content)` (`server.js:794-801`). -/
def looksLikeToolCall (content : Str) : Bool :=
  let trimmed := jsTrim content
  ("\x7b\"tool_calls\"".data.isPrefixOf trimmed) ||
  ("\x7b\"name\"".data.isPrefixOf trimmed) ||
  ("```json\n\x7b\"tool_calls\"".data.isPrefixOf trimmed) ||
  ("```\n\x7b\"tool_calls\"".data.isPrefixOf trimmed)

/-- Terminal finish reasons of the outbound protocol. -/
inductive FinishReason where
  | stop : FinishReason
  | toolCalls : FinishReason
deriving DecidableEq, Repr

/-- Outbound protocol frames written with `res.write` (each constructor
is one `data:` frame; `done` is the final `data: [DONE]` sentinel).
`first` records whether the frame carried the `role: 'assistant'`
marker (`isFirstChunk`). -/
inductive Frame where
  | contentDelta (model : Str) (first : Bool) (content : Str) : Frame
  | errorUnit (model : Str) (msg : Str) : Frame
  | toolStart (model : Str) (first : Bool) (idx : Nat) (id ty : Json)
      (name : Option Json) (arguments : Str) : Frame
  | toolArgs (model : Str) (idx : Nat) (chunk : Str) : Frame
  | terminal (model : Str) (reason : FinishReason) : Frame
  | done : Frame
  | nonStreamReply (model : Str) (content : Option Json)
      (toolCalls : Option (List ToolCall)) (reason : FinishReason) : Frame
deriving DecidableEq, Repr

/-- Request-local state of the streaming `reader.on('data')` handler
(`server.js:783-789`): the line buffer, the accumulated text, the
first-chunk flag, the text already sent, the tool-call mode flag and
the tool-call buffer, plus the frames written so far. -/
structure AggState where
  buffer : Str
  fullContent : Str
  isFirstChunk : Bool
  sentContent : Str
  isToolCallMode : Bool
  toolCallBuffer : Str
  frames : List Frame
deriving DecidableEq, Repr

/-- Initial aggregation state. -/
def initAgg : AggState :=
  { buffer := [], fullContent := [], isFirstChunk := true, sentContent := []
    isToolCallMode := false, toolCallBuffer := [], frames := [] }

/-- Model of `sendContentChunk(content)` (`server.js:806-825`): skip
empty content, otherwise write one plain content delta and advance
`sentContent`. -/
def sendContentChunk (model : Str) (s : AggState) (content : Str) : AggState :=
  if content = [] then s
  else
    { s with
      frames := s.frames ++ [.contentDelta model s.isFirstChunk content]
      isFirstChunk := false
      sentContent := s.sentContent ++ content }

/-- The `theContent` extraction `parsed?.msgItem?.theContent || ''`. -/
def lineContent (p : Json) : Str :=
  match (objGet p "msgItem".data).bind (objGet · "theContent".data) with
  | some v => if jsTruthy v then jsToStr v else []
  | none => []

/-- Whether `typeof parsed?.code === 'number' && parsed.code !== 0`. -/
def isErrorLine (p : Json) : Bool :=
  match objGet p "code".data with
  | some (.num lit) => !numIsZero lit
  | _ => false

/-- The inline error message `Error: ${parsed.msg}`. -/
def errorMsgOf (p : Json) : Str :=
  "Error: ".data ++
    (match objGet p "msg".data with
     | some v => jsToStr v
     | none => "undefined".data)

/-- Processing of one parsed stream line by the `reader.on('data')`
handler (`server.js:920-961`): error lines become inline error frames;
content lines extend `fullContent`, may flip the mode to TOOL_CANDIDATE
while nothing has been sent, and are either buffered or sent. -/
def procParsedLine (model : Str) (s : AggState) (p : Json) : AggState :=
  if isErrorLine p then
    { s with frames := s.frames ++ [.errorUnit model (errorMsgOf p)] }
  else if lineContent p = [] then s
  else if (if !s.isToolCallMode ∧ s.sentContent.length = 0 then
      looksLikeToolCall (s.fullContent ++ lineContent p)
    else s.isToolCallMode) then
    { s with
      fullContent := s.fullContent ++ lineContent p
      isToolCallMode := true
      toolCallBuffer := s.fullContent ++ lineContent p }
  else
    sendContentChunk model { s with fullContent := s.fullContent ++ lineContent p }
      (lineContent p)

/-- Processing of one raw stream line: skip blank lines, swallow JSON
parse failures, otherwise handle the parsed record. -/
def procRawLine (model : Str) (s : AggState) (line : Str) : AggState :=
  if jsTrim line = [] then s
  else
    match jsonParse line with
    | none => s
    | some p => procParsedLine model s p

/-- Processing of one raw byte chunk (`server.js:907-966`): append to
the line buffer, split on newlines, retain the trailing fragment and
process every complete line. -/
def procChunk (model : Str) (s : AggState) (chunk : Str) : AggState :=
  let parts := splitOnNl (s.buffer ++ chunk)
  let lines := parts.dropLast
  let rest := (parts.getLast?).getD []
  lines.foldl (procRawLine model) { s with buffer := rest }

/-- Run the data handler over a whole sequence of upstream chunks. -/
def runChunks (model : Str) (chunks : List Str) : AggState :=
  chunks.foldl (procChunk model) initAgg

/-- Argument chunks of `sendToolCallsStream`: the arguments string (or
`'{}'` when falsy) sliced into pieces of `chunkSize = 50`. -/
def argChunksOf (arguments : Str) : List Str :=
  chunksOf 50 (if arguments = [] then "\x7b\x7d".data else arguments)

/-- Frames written for the calls starting at index `idx`; helper for
`sendToolCallsStream`. -/
def toolCallFramesFrom (model : Str) : Bool → Nat → List ToolCall → List Frame
  | _, _, [] => []
  | first, idx, tc :: rest =>
    (.toolStart model first idx tc.id tc.type tc.name [] ::
      (argChunksOf tc.arguments).map (.toolArgs model idx)) ++
    toolCallFramesFrom model false (idx + 1) rest

/-- Model of `sendToolCallsStream(toolCalls)` (`server.js:830-905`):
for each call an initial frame with empty arguments followed by
50-character argument slices; returns the frames and the updated
first-chunk flag. -/
def sendToolCallsStream (model : Str) (s : AggState) (toolCalls : List ToolCall) :
    AggState :=
  if toolCalls = [] then s
  else
    { s with
      frames := s.frames ++ toolCallFramesFrom model s.isFirstChunk 0 toolCalls
      isFirstChunk := false }

/-- Model of the `reader.on('end')` handler (`server.js:968-1025`):
on successful normalization emit the tool calls and a `tool_calls`
terminal, otherwise flush the tool-call buffer when in TOOL_CANDIDATE
mode and emit a `stop` terminal; always finish with the `[DONE]`
sentinel. -/
def procEndCore (model : Str) (s : AggState) : Option (List ToolCall) → AggState
  | some calls =>
    if calls.length > 0 then
      let s1 := sendToolCallsStream model s calls
      { s1 with frames := s1.frames ++ [.terminal model .toolCalls, .done] }
    else
      let s1 := if s.isToolCallMode ∧ s.toolCallBuffer ≠ [] then
          sendContentChunk model s s.toolCallBuffer
        else s
      { s1 with frames := s1.frames ++ [.terminal model .stop, .done] }
  | none =>
    let s1 := if s.isToolCallMode ∧ s.toolCallBuffer ≠ [] then
        sendContentChunk model s s.toolCallBuffer
      else s
    { s1 with frames := s1.frames ++ [.terminal model .stop, .done] }

/-- Entry point of the end handler: normalize the accumulated text and
dispatch on the result. -/
def procEnd (model : Str) (g : Nat → Str) (s : AggState) : AggState :=
  procEndCore model s (parseToolCalls g s.fullContent)

/-- One request message `{role, content}`; `content` may be a string or
a multimodal array, hence a `Json` value. -/
structure Msg where
  role : Str
  content : Json
deriving DecidableEq, Repr

/-- Model of `formatMessageContent(content)` (`server.js:599-608`):
strings pass through, arrays keep the `text` of `type: 'text'` items
joined by newlines, everything else becomes the empty string. -/
def formatMessageContent : Json → Str
  | .str s => s
  | .arr items =>
    let texts := (items.filter (fun it => objGet it "type".data = some (.str "text".data))).map
      (fun it =>
        match objGet it "text".data with
        | some .null => []
        | some v => jsToStr v
        | none => [])
    match texts with
    | [] => []
    | t :: ts => ts.foldl (fun acc u => acc ++ '\n' :: u) t
  | _ => []

/-- Model of `shouldResetConversation(msgs)` (`server.js:436-441`): the
trimmed content of the final message of the list is one of the reset
words. -/
def shouldResetConversation (msgs : List Msg) : Bool :=
  match msgs.getLast? with
  | none => false
  | some m =>
    ["重置".data, "reset".data, "1".data].contains
      (jsTrim (formatMessageContent m.content))

/-- Model of `shouldRelogin(msgs)` (`server.js:442-447`): the trimmed,
lower-cased content of the final message is one of the relogin words. -/
def shouldRelogin (msgs : List Msg) : Bool :=
  match msgs.getLast? with
  | none => false
  | some m =>
    ["重新登录".data, "login".data, "登录".data].contains
      (jsLower (jsTrim (formatMessageContent m.content)))

/-- Model of `isFreeTime()` (`server.js:448-458`) as a function of the
epoch timestamp in milliseconds.  The source builds a Beijing-time
`Date` by adding `getTimezoneOffset()*60000 + 8*3600000` and reading it
with the local-timezone accessors, so the timezone offset cancels and
the hour/day are those of the timestamp shifted by eight hours; epoch
day zero (1970-01-01) was a Thursday, hence the `+ 4` in the weekday. -/
def isFreeTime (nowMs : Nat) : Bool :=
  let beijing := nowMs + 8 * 3600000
  let hour := beijing / 3600000 % 24
  let day := (beijing / 86400000 + 4) % 7
  (day = 0 || day = 6) || (hour ≥ 20 || hour < 8)

/-- The shared-default credential sentinel. -/
def defaultKey : Str := "sk-qqlcx5".data

/-- The free-period replacement model identifier. -/
def freeModelId : Str := "gpt-4o-2024-05-13".data

/-- Model of `sendSystemMessage` (`server.js:335-404`): a role-tagged
content chunk plus a `stop` terminal when streaming, one complete reply
otherwise. -/
def sendSystemMessage (model : Str) (isStream : Bool) (content : Str) : List Frame :=
  if isStream then
    [.contentDelta model true content, .terminal model .stop, .done]
  else
    [.nonStreamReply model (some (.str content)) none .stop]

/-- Association-list lookup for the conversation store. -/
def lookupStore (st : List (Str × Str)) (k : Str) : Option Str :=
  (st.find? (fun kv => kv.1 = k)).map (·.2)

/-- Association-list overwrite for the conversation store. -/
def setStore (st : List (Str × Str)) (k v : Str) : List (Str × Str) :=
  (k, v) :: st.filter (fun kv => kv.1 ≠ k)

/-- Model of the `authenticateToken` middleware (`server.js:278-318`)
for a request that presented `token`, given the current
`default_user` slot of the token store and the token a login call would
return; yields the resolved `req.mossToken`, the updated slot and the
number of login calls made (0 or 1). -/
def authenticateToken (loginResult : Str) (tokenStore : Option Str) (token : Str) :
    Str × Option Str × Nat :=
  if token = defaultKey then
    match tokenStore with
    | some t =>
      if t = [] then (loginResult, some loginResult, 1) else (t, some t, 0)
    | none => (loginResult, some loginResult, 1)
  else (token, tokenStore, 0)

/-- External collaborator results consumed by one request: the token
returned by the `n`-th login call, the identifier returned by
conversation creation, the upstream generation output (streamed chunks
or the non-streaming body) and the generated tool-call ids. -/
structure Collab where
  loginResults : Nat → Str
  convId : Str
  upstreamChunks : List Str
  upstreamBody : Json
  g : Nat → Str

/-- Process-wide mutable state: the `default_user` slot of
`userTokenStore` and the `conversationStore` entries. -/
structure GatewayState where
  tokenStore : Option Str
  convStore : List (Str × Str)
deriving DecidableEq, Repr

/-- Observable outcome of one `/v1/chat/completions` request. -/
structure HandlerOut where
  frames : List Frame
  tokenStore : Option Str
  convStore : List (Str × Str)
  loginCalls : Nat
  convCalls : Nat
  generationCalled : Bool
deriving DecidableEq, Repr

/-- The one incoming request body. -/
structure ChatRequest where
  stream : Bool
  messages : List Msg
  model : Str
deriving DecidableEq, Repr

/-- Generation-path frames: the streaming pipeline over the upstream
chunks, or the single non-streaming reply (`server.js:1034-1073`). -/
def generationFrames (C : Collab) (model : Str) (isStream : Bool) : List Frame :=
  if isStream then
    (procEnd model C.g (runChunks model C.upstreamChunks)).frames
  else
    let contentVal := jsOrJ (objGet C.upstreamBody "content".data)
      (jsOrJ (objGet C.upstreamBody "text".data) (.str []))
    let toolCalls :=
      match contentVal with
      | .str s => parseToolCalls C.g s
      | _ => none
    match toolCalls with
    | some calls =>
      if calls.length > 0 then
        [.nonStreamReply model none (some calls) .toolCalls]
      else
        [.nonStreamReply model (some contentVal) none .toolCalls]
    | none => [.nonStreamReply model (some contentVal) none .stop]

/-- Model of the `/v1/chat/completions` route handler
(`server.js:706-1074`): authentication, the free-time model override,
the relogin branch, session management and the generation call. -/
def handleChat (C : Collab) (S : GatewayState) (req : ChatRequest) (nowMs : Nat)
    (presented : Str) : HandlerOut :=
  let auth := authenticateToken (C.loginResults 0) S.tokenStore presented
  let mossToken := auth.1
  let tokenStore1 := auth.2.1
  let logins1 := auth.2.2
  let userKey := mossToken
  let model := if isFreeTime nowMs ∧ req.model ≠ freeModelId then freeModelId else req.model
  if shouldRelogin req.messages ∧ mossToken ≠ defaultKey then
    { frames := sendSystemMessage model req.stream
        ("非默认key无法自动重登，请重新登录。".data ++ mossToken)
      tokenStore := tokenStore1, convStore := S.convStore
      loginCalls := logins1, convCalls := 0, generationCalled := false }
  else if shouldRelogin req.messages then
    let newTok := C.loginResults logins1
    { frames := sendSystemMessage model req.stream "已重新登录，请重试。".data
      tokenStore := some newTok, convStore := S.convStore
      loginCalls := logins1 + 1, convCalls := 0, generationCalled := false }
  else
    let conv0 := lookupStore S.convStore userKey
    if (conv0.getD []).isEmpty || shouldResetConversation req.messages then
      let convStore1 := setStore S.convStore userKey C.convId
      if shouldResetConversation req.messages then
        { frames := sendSystemMessage model req.stream
            ("会话ID已失效，新的会话 ID: ".data ++ C.convId ++
              " 已创建 ，请重新提问~~".data)
          tokenStore := tokenStore1, convStore := convStore1
          loginCalls := logins1, convCalls := 1, generationCalled := false }
      else
        { frames := generationFrames C model req.stream
          tokenStore := tokenStore1, convStore := convStore1
          loginCalls := logins1, convCalls := 1, generationCalled := true }
    else
      { frames := generationFrames C model req.stream
        tokenStore := tokenStore1, convStore := S.convStore
        loginCalls := logins1, convCalls := 0, generationCalled := true }

/-- Model of the TTL store `CleanupMap` (`server.js:145-176`): a map
together with per-key last-access timestamps and a maximum age. -/
structure CleanupMap (K V : Type) where
  maxAgeMs : Nat
  data : K → Option V
  lastAccess : K → Option Nat

/-- `CleanupMap.set` (`server.js:155-158`): store the value and refresh
the key's last-access timestamp. -/
def CleanupMap.set [DecidableEq K] (m : CleanupMap K V) (k : K) (v : V) (now : Nat) :
    CleanupMap K V :=
  { m with
    data := fun k' => if k' = k then some v else m.data k'
    lastAccess := fun k' => if k' = k then some now else m.lastAccess k' }

/-- `CleanupMap.get` (`server.js:160-165`): return the stored value and
refresh the last-access timestamp when the key is present. -/
def CleanupMap.get [DecidableEq K] (m : CleanupMap K V) (k : K) (now : Nat) :
    Option V × CleanupMap K V :=
  (m.data k,
   if (m.data k).isSome then
     { m with lastAccess := fun k' => if k' = k then some now else m.lastAccess k' }
   else m)

/-- `Map.delete` (not overridden by `CleanupMap`): the value is removed
but the last-access entry is left behind. -/
def CleanupMap.deleteKey [DecidableEq K] (m : CleanupMap K V) (k : K) : CleanupMap K V :=
  { m with data := fun k' => if k' = k then none else m.data k' }

/-- `CleanupMap.cleanup` (`server.js:167-175`): the periodic sweep
removes every key whose last access is strictly older than `maxAgeMs`. -/
def CleanupMap.cleanup (m : CleanupMap K V) (now : Nat) : CleanupMap K V :=
  { m with
    data := fun k =>
      match m.lastAccess k with
      | some t => if now - t > m.maxAgeMs then none else m.data k
      | none => m.data k
    lastAccess := fun k =>
      match m.lastAccess k with
      | some t => if now - t > m.maxAgeMs then none else some t
      | none => none }

/-- Phase of one concurrent request inside `authenticateToken` when the
shared-default key is presented: before the store lookup, suspended in
`await loginAndGetToken()` (remembering which login call it issued), or
finished with an observed token. -/
inductive ReqPhase where
  | start : ReqPhase
  | awaiting (callIdx : Nat) : ReqPhase
  | reqDone (tok : Str) : ReqPhase
deriving DecidableEq, Repr

/-- Shared state of the cooperative scheduler: the `default_user` token
slot, how many login calls have been issued, and every request's phase. -/
structure ConcState where
  tokenSlot : Option Str
  loginCalls : Nat
  reqs : List ReqPhase
deriving DecidableEq, Repr

/-- One cooperative step of request `i` through `authenticateToken`
(`server.js:293-312`): from `start`, read the slot and either observe
the cached token or issue a login call and suspend at the `await`; on
resume, store the login result and finish with it.  `login` gives the
token returned by the `n`-th issued login call. -/
def concStep (login : Nat → Str) (s : ConcState) (i : Nat) : ConcState :=
  match s.reqs.get? i with
  | some .start =>
    (match s.tokenSlot with
     | some t =>
       if t = [] then
         { s with loginCalls := s.loginCalls + 1
                  reqs := s.reqs.set i (.awaiting s.loginCalls) }
       else { s with reqs := s.reqs.set i (.reqDone t) }
     | none =>
       { s with loginCalls := s.loginCalls + 1
                reqs := s.reqs.set i (.awaiting s.loginCalls) })
  | some (.awaiting k) =>
    let tok := login k
    { s with tokenSlot := some tok, reqs := s.reqs.set i (.reqDone tok) }
  | _ => s

/-- Run a whole interleaving schedule. -/
def runSched (login : Nat → Str) (s0 : ConcState) (sched : List Nat) : ConcState :=
  sched.foldl (concStep login) s0

/-- Characters that leave the extractor state untouched outside string
literals. -/
def scanPlain (c : Char) : Bool :=
  (c != '"') && (c != '\\') && (c != '{') && (c != '}')

/-- Well-formed body of a double-quoted string literal: no bare quote
or backslash, escape pairs allowed. -/
inductive JStrBody : Str → Prop where
  | nil : JStrBody []
  | safe {c : Char} {s : Str} : c ≠ '"' → c ≠ '\\' → JStrBody s → JStrBody (c :: s)
  | esc {c : Char} {s : Str} : JStrBody s → JStrBody ('\\' :: c :: s)

/-- Scanner-neutral text: plain characters, complete string literals
and balanced brace groups.  Every syntactically valid JSON value
belongs to this class. -/
inductive Neutral : Str → Prop where
  | nil : Neutral []
  | plain {c : Char} {s : Str} : scanPlain c = true → Neutral s → Neutral (c :: s)
  | strLit {b s : Str} : JStrBody b → Neutral s → Neutral ('"' :: b ++ '"' :: s)
  | objNest {inner s : Str} : Neutral inner → Neutral s →
      Neutral ('{' :: inner ++ '}' :: s)

theorem scanPlain_spec {c : Char} (h : scanPlain c = true) :
    c ≠ '"' ∧ c ≠ '\\' ∧ c ≠ '{' ∧ c ≠ '}' := by
  simp only [scanPlain, Bool.and_eq_true, bne_iff_ne] at h
  exact ⟨h.1.1.1, h.1.1.2, h.1.2, h.2⟩

/-- Consuming a well-formed string body leaves the scanner in-string
with unchanged depth and start. -/
theorem ebjGo_jstr {b : Str} (hb : JStrBody b) :
    ∀ (rest : Str) (i : Nat) (depth start : Int),
      ebjGo (b ++ rest) i depth true false start =
        ebjGo rest (i + b.length) depth true false start := by
  induction hb with
  | nil => intro rest i depth start; simp
  | @safe c s hq hbs _ ih =>
    intro rest i depth start
    have step : ebjGo ((c :: s) ++ rest) i depth true false start =
        ebjGo (s ++ rest) (i + 1) depth true false start := by
      rw [List.cons_append, ebjGo]
      simp [hq, hbs]
    rw [step, ih]
    simp only [List.length_cons]
    have h2 : i + (s.length + 1) = i + 1 + s.length := by omega
    rw [h2]
  | @esc c s _ ih =>
    intro rest i depth start
    have step : ebjGo (('\\' :: c :: s) ++ rest) i depth true false start =
        ebjGo (s ++ rest) (i + 1 + 1) depth true false start := by
      rw [List.cons_append, ebjGo]
      simp [ebjGo]
    rw [step, ih]
    simp only [List.length_cons]
    have h2 : i + (s.length + 1 + 1) = i + 1 + 1 + s.length := by omega
    rw [h2]

/-- Consuming neutral text at positive depth neither returns nor
changes the scanner state. -/
theorem ebjGo_neutral {n : Str} (hn : Neutral n) :
    ∀ (rest : Str) (i : Nat) (depth start : Int), 1 ≤ depth →
      ebjGo (n ++ rest) i depth false false start =
        ebjGo rest (i + n.length) depth false false start := by
  induction hn with
  | nil => intro rest i depth start _; simp
  | @plain c s hc _ ih =>
    intro rest i depth start hd
    obtain ⟨h1, h2, h3, h4⟩ := scanPlain_spec hc
    have step : ebjGo ((c :: s) ++ rest) i depth false false start =
        ebjGo (s ++ rest) (i + 1) depth false false start := by
      rw [List.cons_append, ebjGo]
      simp [h1, h2, h3, h4]
    rw [step, ih rest (i + 1) depth start hd]
    simp only [List.length_cons]
    have h5 : i + (s.length + 1) = i + 1 + s.length := by omega
    rw [h5]
  | @strLit b s hb _ ih =>
    intro rest i depth start hd
    have step : ebjGo (('"' :: b ++ '"' :: s) ++ rest) i depth false false start =
        ebjGo (b ++ '"' :: (s ++ rest)) (i + 1) depth true false start := by
      simp only [List.cons_append, ebjGo]
      simp
    rw [step, ebjGo_jstr hb ('"' :: (s ++ rest)) (i + 1) depth start]
    have step2 : ebjGo ('"' :: (s ++ rest)) (i + 1 + b.length) depth true false start =
        ebjGo (s ++ rest) (i + 1 + b.length + 1) depth false false start := by
      simp only [ebjGo]
      simp
    rw [step2, ih rest (i + 1 + b.length + 1) depth start hd]
    have h5 : i + 1 + b.length + 1 + s.length = i + ('"' :: b ++ '"' :: s).length := by
      simp only [List.length_append, List.length_cons]
      omega
    rw [h5]
  | @objNest inner s hinner _ ih1 ih2 =>
    intro rest i depth start hd
    have step : ebjGo (('{' :: inner ++ '}' :: s) ++ rest) i depth false false start =
        ebjGo (inner ++ '}' :: (s ++ rest)) (i + 1) (depth + 1) false false start := by
      simp only [List.cons_append, ebjGo]
      have hdep : ¬(depth = 0) := by omega
      simp [hdep]
    rw [step, ih1 ('}' :: (s ++ rest)) (i + 1) (depth + 1) start (by omega)]
    have step2 : ebjGo ('}' :: (s ++ rest)) (i + 1 + inner.length) (depth + 1) false false start =
        ebjGo (s ++ rest) (i + 1 + inner.length + 1) depth false false start := by
      simp only [ebjGo]
      have hdep : ¬(depth + 1 - 1 = 0 ∧ start ≠ -1) := by
        intro hh
        omega
      simp only [if_neg hdep]
      have h6 : depth + 1 - 1 = depth := by omega
      simp [h6]
    rw [step2, ih2 rest (i + 1 + inner.length + 1) depth start hd]
    have h5 : i + 1 + inner.length + 1 + s.length = i + ('{' :: inner ++ '}' :: s).length := by
      simp only [List.length_append, List.length_cons]
      omega
    rw [h5]

/-- Plain characters before the object leave the initial scanner state
unchanged. -/
theorem ebjGo_plainPre (p : Str) (hp : ∀ c ∈ p, scanPlain c = true) :
    ∀ (rest : Str) (i : Nat),
      ebjGo (p ++ rest) i 0 false false (-1) =
        ebjGo rest (i + p.length) 0 false false (-1) := by
  induction p with
  | nil => intro rest i; simp
  | cons c s ih =>
    intro rest i
    obtain ⟨h1, h2, h3, h4⟩ := scanPlain_spec (hp c (by simp))
    have step : ebjGo ((c :: s) ++ rest) i 0 false false (-1) =
        ebjGo (s ++ rest) (i + 1) 0 false false (-1) := by
      simp only [List.cons_append, ebjGo]
      simp [h1, h2, h3, h4]
    rw [step, ih (fun c hc => hp c (by simp [hc])) rest (i + 1)]
    have h5 : i + 1 + s.length = i + (c :: s).length := by
      simp only [List.length_cons]
      omega
    rw [h5]

/-- Scanning a neutral-bodied brace group after a plain prefix returns
exactly the group's bounds. -/
theorem ebjGo_extract (p inner suffix : Str) (hp : ∀ c ∈ p, scanPlain c = true)
    (hi : Neutral inner) :
    ebjGo (p ++ ('{' :: (inner ++ ('}' :: suffix)))) 0 0 false false (-1) =
      some ((p.length : Int), p.length + inner.length + 2) := by
  rw [ebjGo_plainPre p hp ('{' :: (inner ++ ('}' :: suffix))) 0]
  have step : ebjGo ('{' :: (inner ++ ('}' :: suffix))) (0 + p.length) 0 false false (-1) =
      ebjGo (inner ++ ('}' :: suffix)) (0 + p.length + 1) 1 false false ((p.length : Int)) := by
    simp only [ebjGo]
    simp
  rw [step, ebjGo_neutral hi ('}' :: suffix) (0 + p.length + 1) 1 ((p.length : Int)) (by omega)]
  have step2 : ebjGo ('}' :: suffix) (0 + p.length + 1 + inner.length) 1 false false
      ((p.length : Int)) = some ((p.length : Int), 0 + p.length + 1 + inner.length + 1) := by
    simp only [ebjGo]
    have hne : ((p.length : Int)) ≠ -1 := by omega
    simp [hne]
  rw [step2]
  have h5 : 0 + p.length + 1 + inner.length + 1 = p.length + inner.length + 2 := by omega
  rw [h5]

/-- The extractor applied to a plain prefix, a neutral-bodied object
and an arbitrary suffix returns exactly the object. -/
theorem extractBalancedJson_neutral (p inner suffix : Str)
    (hp : ∀ c ∈ p, scanPlain c = true) (hi : Neutral inner) :
    extractBalancedJson (p ++ ('{' :: (inner ++ ('}' :: suffix)))) 0 =
      some ('{' :: (inner ++ ['}'])) := by
  rw [extractBalancedJson]
  simp only [List.drop_zero]
  rw [ebjGo_extract p inner suffix hp hi]
  show some (substringList (p ++ ('{' :: (inner ++ ('}' :: suffix))))
      ((p.length : Int)).toNat (p.length + inner.length + 2)) = some ('{' :: (inner ++ ['}']))
  have htn : ((p.length : Int)).toNat = p.length := Int.toNat_natCast p.length
  have hobj : p ++ ('{' :: (inner ++ ('}' :: suffix))) =
      p ++ (('{' :: (inner ++ ['}'])) ++ suffix) := by simp
  rw [htn, substringList, hobj, List.drop_left]
  have hlen : p.length + inner.length + 2 - p.length = ('{' :: (inner ++ ['}'])).length := by
    simp only [List.length_cons, List.length_append, List.length_nil]
    omega
  rw [hlen, List.take_left]

/-- An unterminated neutral-bodied object makes the extractor return
`none` (the source's `null`). -/
theorem extractBalancedJson_unterminated (p inner : Str)
    (hp : ∀ c ∈ p, scanPlain c = true) (hi : Neutral inner) :
    extractBalancedJson (p ++ ('{' :: inner)) 0 = none := by
  rw [extractBalancedJson]
  simp only [List.drop_zero]
  have step : ebjGo (p ++ ('{' :: inner)) 0 0 false false (-1) =
      ebjGo ([] : Str) (0 + p.length + 1 + inner.length) 1 false false ((p.length : Int)) := by
    rw [ebjGo_plainPre p hp ('{' :: inner) 0]
    have step1 : ebjGo ('{' :: inner) (0 + p.length) 0 false false (-1) =
        ebjGo (inner ++ []) (0 + p.length + 1) 1 false false ((p.length : Int)) := by
      simp only [ebjGo]
      simp
    rw [step1, ebjGo_neutral hi [] (0 + p.length + 1) 1 ((p.length : Int)) (by omega)]
  rw [step, ebjGo]

/-- Characters allowed in a well-formed numeric literal. -/
def numChar (c : Char) : Bool :=
  ['0', '1', '2', '3', '4', '5', '6', '7', '8', '9', '+', '-', '.', 'e', 'E'].contains c

/-- A sane numeric literal: nonempty and made of numeric characters. -/
def numLitOK (lit : Str) : Bool :=
  !lit.isEmpty && lit.all numChar

mutual

/-- Well-formed parsed values: every numeric literal is sane (the
parser only ever produces such values). -/
def jsonWF : Json → Bool
  | .null => true
  | .bool _ => true
  | .num lit => numLitOK lit
  | .str _ => true
  | .arr es => jsonListWF es
  | .obj fs => jsonFieldsWF fs

/-- Well-formedness of a list of values. -/
def jsonListWF : List Json → Bool
  | [] => true
  | e :: rest => jsonWF e && jsonListWF rest

/-- Well-formedness of object members. -/
def jsonFieldsWF : List (Str × Json) → Bool
  | [] => true
  | kv :: rest => jsonWF kv.2 && jsonFieldsWF rest

end

theorem scanPlain_of_numChar {c : Char} (h : numChar c = true) : scanPlain c = true := by
  have hm : c ∈ ['0', '1', '2', '3', '4', '5', '6', '7', '8', '9', '+', '-', '.', 'e', 'E'] := by
    simpa [numChar] using h
  fin_cases hm <;> decide

theorem neutral_of_all_plain {s : Str} (h : ∀ c ∈ s, scanPlain c = true) : Neutral s := by
  induction s with
  | nil => exact .nil
  | cons c rest ih =>
    exact .plain (h c (by simp)) (ih (fun c hc => h c (by simp [hc])))

theorem neutral_append {a b : Str} (ha : Neutral a) (hb : Neutral b) : Neutral (a ++ b) := by
  induction ha with
  | nil => simpa using hb
  | plain hc _ ih => exact .plain hc ih
  | @strLit bs s hbody _ ih =>
    have hsh : (('"' :: bs) ++ ('"' :: s)) ++ b = ('"' :: bs) ++ ('"' :: (s ++ b)) := by simp
    rw [hsh]
    exact .strLit hbody ih
  | @objNest inner s hinner _ _ ih2 =>
    have hsh : (('{' :: inner) ++ ('}' :: s)) ++ b = ('{' :: inner) ++ ('}' :: (s ++ b)) := by
      simp
    rw [hsh]
    exact .objNest hinner ih2

theorem hexDigit_safe {n : Nat} (h : n < 16) : hexDigit n ≠ '"' ∧ hexDigit n ≠ '\\' := by
  interval_cases n <;> exact ⟨by decide, by decide⟩

theorem jstrBody_append {a b : Str} (ha : JStrBody a) (hb : JStrBody b) :
    JStrBody (a ++ b) := by
  induction ha with
  | nil => simpa using hb
  | safe h1 h2 _ ih => exact .safe h1 h2 ih
  | esc _ ih => exact .esc ih

theorem jstrBody_escChar (c : Char) : JStrBody (escChar c) := by
  unfold escChar
  split_ifs with h1 h2 h3 h4 h5 h6 h7 h8
  · exact .esc .nil
  · exact .esc .nil
  · exact .esc .nil
  · exact .esc .nil
  · exact .esc .nil
  · exact .esc .nil
  · exact .esc .nil
  · have d1 : c.toNat / 16 < 16 := by omega
    have d2 : c.toNat % 16 < 16 := by omega
    exact .esc (.safe (by decide) (by decide)
      (.safe (by decide) (by decide)
        (.safe (hexDigit_safe d1).1 (hexDigit_safe d1).2
          (.safe (hexDigit_safe d2).1 (hexDigit_safe d2).2 .nil))))
  · exact .safe h1 h2 .nil

theorem jstrBody_escStr (s : Str) : JStrBody (escStr s) := by
  induction s with
  | nil => exact .nil
  | cons c rest ih =>
    have hsh : escStr (c :: rest) = escChar c ++ escStr rest := by
      simp [escStr]
    rw [hsh]
    exact jstrBody_append (jstrBody_escChar c) ih

mutual

/-- Rendered well-formed values are scanner-neutral. -/
theorem neutral_render : ∀ v : Json, jsonWF v = true → Neutral (jsonRender v)
  | .null, _ => neutral_of_all_plain (by decide)
  | .bool true, _ => neutral_of_all_plain (by decide)
  | .bool false, _ => neutral_of_all_plain (by decide)
  | .num lit, h => by
    apply neutral_of_all_plain
    intro c hc
    have hall : ∀ x ∈ lit, numChar x = true := by
      have hh : numLitOK lit = true := h
      simp [numLitOK] at hh
      exact hh.2
    exact scanPlain_of_numChar (hall c hc)
  | .str s, _ => .strLit (jstrBody_escStr s) .nil
  | .arr es, h => by
    have hs : jsonListWF es = true := h
    exact neutral_append (.plain (by decide) (neutral_renderElems es hs))
      (neutral_of_all_plain (by decide))
  | .obj fs, h => .objNest (neutral_renderFields fs h) .nil

/-- Rendered well-formed element lists are scanner-neutral. -/
theorem neutral_renderElems : ∀ es : List Json, jsonListWF es = true → Neutral (renderElems es)
  | [], _ => .nil
  | [e], h => by
    have h1 : jsonWF e = true := by
      have hh : (jsonWF e && jsonListWF []) = true := h
      simp at hh
      exact hh.1
    exact neutral_render e h1
  | e :: e2 :: rest, h => by
    have hh : (jsonWF e && jsonListWF (e2 :: rest)) = true := h
    rw [Bool.and_eq_true] at hh
    exact neutral_append (neutral_render e hh.1)
      (.plain (by decide) (neutral_renderElems (e2 :: rest) hh.2))

/-- Rendered well-formed member lists are scanner-neutral. -/
theorem neutral_renderFields : ∀ fs : List (Str × Json), jsonFieldsWF fs = true →
    Neutral (renderFields fs)
  | [kv], h => by
    have h1 : jsonWF kv.2 = true := by
      have hh : (jsonWF kv.2 && jsonFieldsWF []) = true := h
      simp at hh
      exact hh.1
    exact .strLit (jstrBody_escStr kv.1) (.plain (by decide) (neutral_render kv.2 h1))
  | [], _ => .nil
  | kv :: kv2 :: rest, h => by
    have hh : (jsonWF kv.2 && jsonFieldsWF (kv2 :: rest)) = true := h
    rw [Bool.and_eq_true] at hh
    exact neutral_append
      (.strLit (jstrBody_escStr kv.1) (.plain (by decide) (neutral_render kv.2 hh.1)))
      (.plain (by decide) (neutral_renderFields (kv2 :: rest) hh.2))

end

/-- Whether a frame is a plain content delta (written by
`sendContentChunk`). -/
def isPlainDelta : Frame → Bool
  | .contentDelta _ _ _ => true
  | _ => false

/-- The plain content deltas among a list of frames. -/
def plainDeltas (fr : List Frame) : List Frame := fr.filter isPlainDelta

/-- Run the data handler over already-decoded lines. -/
def runLines (model : Str) (s : AggState) (lines : List Str) : AggState :=
  lines.foldl (procRawLine model) s

/-- The text a decoded line contributes to `fullContent`. -/
def lineFragment (line : Str) : Str :=
  if jsTrim line = [] then []
  else
    match jsonParse line with
    | none => []
    | some p => if isErrorLine p then [] else lineContent p

/-- Reachable-state invariant of the aggregator: in TEXT mode everything
accumulated has been sent; in TOOL_CANDIDATE mode nothing has been
sent, no plain delta has been written and the tool-call buffer mirrors
the nonempty accumulated text. -/
structure AggInv (s : AggState) : Prop where
  text_sent : s.isToolCallMode = false → s.sentContent = s.fullContent
  tool_sent : s.isToolCallMode = true → s.sentContent = []
  tool_buf : s.isToolCallMode = true → s.toolCallBuffer = s.fullContent ∧ s.fullContent ≠ []
  no_deltas : s.sentContent = [] → plainDeltas s.frames = []

theorem aggInv_init : AggInv initAgg := by
  constructor
  · intro _; rfl
  · intro h; simp [initAgg] at h
  · intro h; simp [initAgg] at h
  · intro _; rfl

theorem plainDeltas_append (a b : List Frame) :
    plainDeltas (a ++ b) = plainDeltas a ++ plainDeltas b := by
  simp [plainDeltas]

theorem isPrefixOf_app (l t : Str) : l.isPrefixOf (l ++ t) = true := by
  induction l with
  | nil => simp [List.isPrefixOf]
  | cons c r ih => simp [List.isPrefixOf, ih]

theorem procParsedLine_inv {s : AggState} (model : Str) (p : Json) (h : AggInv s) :
    AggInv (procParsedLine model s p) := by
  by_cases h1 : isErrorLine p = true
  · rw [procParsedLine, if_pos h1]
    refine ⟨h.text_sent, h.tool_sent, h.tool_buf, ?_⟩
    intro hs
    rw [plainDeltas_append, h.no_deltas hs]
    rfl
  · rw [procParsedLine, if_neg h1]
    by_cases h2 : lineContent p = []
    · rw [if_pos h2]; exact h
    · rw [if_neg h2]
      by_cases hm : s.isToolCallMode = true
      · have hcond : (if (!s.isToolCallMode) = true ∧ s.sentContent.length = 0 then
            looksLikeToolCall (s.fullContent ++ lineContent p)
          else s.isToolCallMode) = true := by
          rw [hm]; simp
        rw [if_pos hcond]
        refine ⟨?_, ?_, ?_, ?_⟩
        · intro hf; simp at hf
        · intro _; exact h.tool_sent hm
        · intro _; exact ⟨rfl, fun hnil => h2 (List.append_eq_nil.mp hnil).2⟩
        · intro hs; exact h.no_deltas hs
      · have hmf : s.isToolCallMode = false := by simpa using hm
        by_cases hdet : ((!s.isToolCallMode) = true ∧ s.sentContent.length = 0) ∧
            looksLikeToolCall (s.fullContent ++ lineContent p) = true
        · have hcond : (if (!s.isToolCallMode) = true ∧ s.sentContent.length = 0 then
              looksLikeToolCall (s.fullContent ++ lineContent p)
            else s.isToolCallMode) = true := by
            rw [if_pos hdet.1]; exact hdet.2
          rw [if_pos hcond]
          have hsent : s.sentContent = [] := List.length_eq_zero.mp hdet.1.2
          refine ⟨?_, ?_, ?_, ?_⟩
          · intro hf; simp at hf
          · intro _; exact hsent
          · intro _; exact ⟨rfl, fun hnil => h2 (List.append_eq_nil.mp hnil).2⟩
          · intro _; exact h.no_deltas hsent
        · have hcond : (if (!s.isToolCallMode) = true ∧ s.sentContent.length = 0 then
              looksLikeToolCall (s.fullContent ++ lineContent p)
            else s.isToolCallMode) = false := by
            by_cases hg : (!s.isToolCallMode) = true ∧ s.sentContent.length = 0
            · rw [if_pos hg]
              by_cases hl : looksLikeToolCall (s.fullContent ++ lineContent p) = true
              · exact absurd ⟨hg, hl⟩ hdet
              · simpa using hl
            · rw [if_neg hg]; exact hmf
          have hneg : ¬((if (!s.isToolCallMode) = true ∧ s.sentContent.length = 0 then
              looksLikeToolCall (s.fullContent ++ lineContent p)
            else s.isToolCallMode) = true) := by
            rw [hcond]; simp
          rw [if_neg hneg]
          rw [sendContentChunk, if_neg h2]
          refine ⟨?_, ?_, ?_, ?_⟩
          · intro _
            show s.sentContent ++ lineContent p = s.fullContent ++ lineContent p
            rw [h.text_sent hmf]
          · intro ht
            show s.sentContent ++ lineContent p = []
            rw [hmf] at ht; simp at ht
          · intro ht
            rw [hmf] at ht; simp at ht
          · intro hs
            have : s.sentContent ++ lineContent p = [] := hs
            exact absurd (List.append_eq_nil.mp this).2 h2

theorem procRawLine_inv {s : AggState} (model : Str) (line : Str) (h : AggInv s) :
    AggInv (procRawLine model s line) := by
  unfold procRawLine
  split_ifs with h1
  · exact h
  · match jsonParse line with
    | none => exact h
    | some p => exact procParsedLine_inv model p h

theorem runLines_inv {s : AggState} (model : Str) (lines : List Str) (h : AggInv s) :
    AggInv (runLines model s lines) := by
  induction lines generalizing s with
  | nil => exact h
  | cons l rest ih => exact ih (procRawLine_inv model l h)

theorem procParsedLine_tool {s : AggState} (model : Str) (p : Json)
    (hm : s.isToolCallMode = true) :
    (procParsedLine model s p).isToolCallMode = true ∧
    (procParsedLine model s p).sentContent = s.sentContent ∧
    plainDeltas (procParsedLine model s p).frames = plainDeltas s.frames := by
  by_cases h1 : isErrorLine p = true
  · rw [procParsedLine, if_pos h1]
    refine ⟨hm, rfl, ?_⟩
    show plainDeltas (s.frames ++ [Frame.errorUnit model (errorMsgOf p)]) = plainDeltas s.frames
    rw [plainDeltas_append]
    simp [plainDeltas, isPlainDelta]
  · rw [procParsedLine, if_neg h1]
    by_cases h2 : lineContent p = []
    · rw [if_pos h2]; exact ⟨hm, rfl, rfl⟩
    · rw [if_neg h2]
      have hcond : (if (!s.isToolCallMode) = true ∧ s.sentContent.length = 0 then
          looksLikeToolCall (s.fullContent ++ lineContent p)
        else s.isToolCallMode) = true := by
        rw [hm]; simp
      rw [if_pos hcond]
      exact ⟨rfl, rfl, rfl⟩

theorem procRawLine_tool {s : AggState} (model : Str) (line : Str)
    (hm : s.isToolCallMode = true) :
    (procRawLine model s line).isToolCallMode = true ∧
    (procRawLine model s line).sentContent = s.sentContent ∧
    plainDeltas (procRawLine model s line).frames = plainDeltas s.frames := by
  unfold procRawLine
  split_ifs with h1
  · exact ⟨hm, rfl, rfl⟩
  · match jsonParse line with
    | none => exact ⟨hm, rfl, rfl⟩
    | some p => exact procParsedLine_tool model p hm

theorem runLines_tool {s : AggState} (model : Str) (lines : List Str)
    (hm : s.isToolCallMode = true) :
    (runLines model s lines).isToolCallMode = true ∧
    (runLines model s lines).sentContent = s.sentContent ∧
    plainDeltas (runLines model s lines).frames = plainDeltas s.frames := by
  induction lines generalizing s with
  | nil => exact ⟨hm, rfl, rfl⟩
  | cons l rest ih =>
    obtain ⟨m1, m2, m3⟩ := procRawLine_tool model l hm
    obtain ⟨n1, n2, n3⟩ := ih m1
    exact ⟨n1, n2.trans m2, n3.trans m3⟩

theorem procParsedLine_sentApp (model : Str) (s : AggState) (p : Json) :
    ∃ t, (procParsedLine model s p).sentContent = s.sentContent ++ t := by
  by_cases h1 : isErrorLine p = true
  · rw [procParsedLine, if_pos h1]; exact ⟨[], by simp⟩
  · rw [procParsedLine, if_neg h1]
    by_cases h2 : lineContent p = []
    · rw [if_pos h2]; exact ⟨[], by simp⟩
    · rw [if_neg h2]
      by_cases h3 : (if (!s.isToolCallMode) = true ∧ s.sentContent.length = 0 then
          looksLikeToolCall (s.fullContent ++ lineContent p)
        else s.isToolCallMode) = true
      · rw [if_pos h3]; exact ⟨[], by simp⟩
      · rw [if_neg h3, sendContentChunk, if_neg h2]
        exact ⟨lineContent p, rfl⟩

theorem procRawLine_sentApp (model : Str) (s : AggState) (line : Str) :
    ∃ t, (procRawLine model s line).sentContent = s.sentContent ++ t := by
  unfold procRawLine
  split_ifs with h1
  · exact ⟨[], by simp⟩
  · match jsonParse line with
    | none => exact ⟨[], by simp⟩
    | some p => exact procParsedLine_sentApp model s p

theorem runLines_sentApp (model : Str) (s : AggState) (lines : List Str) :
    ∃ t, (runLines model s lines).sentContent = s.sentContent ++ t := by
  induction lines generalizing s with
  | nil => exact ⟨[], by simp [runLines]⟩
  | cons l rest ih =>
    obtain ⟨t1, h1⟩ := procRawLine_sentApp model s l
    obtain ⟨t2, h2⟩ := ih (procRawLine model s l)
    refine ⟨t1 ++ t2, ?_⟩
    show (runLines model (procRawLine model s l) rest).sentContent = _
    rw [h2, h1, List.append_assoc]

theorem aggInv_buffer {s : AggState} (b : Str) (h : AggInv s) :
    AggInv { s with buffer := b } :=
  ⟨h.text_sent, h.tool_sent, h.tool_buf, h.no_deltas⟩

theorem procChunk_inv {s : AggState} (model : Str) (chunk : Str) (h : AggInv s) :
    AggInv (procChunk model s chunk) :=
  runLines_inv model _ (aggInv_buffer _ h)

theorem runChunks_inv (model : Str) (chunks : List Str) : AggInv (runChunks model chunks) := by
  have main : ∀ (cs : List Str) (s : AggState), AggInv s →
      AggInv (cs.foldl (procChunk model) s) := by
    intro cs
    induction cs with
    | nil => intro s hs; exact hs
    | cons c rest ih => intro s hs; exact ih _ (procChunk_inv model c hs)
  exact main chunks initAgg aggInv_init

theorem procChunk_tool {s : AggState} (model : Str) (chunk : Str)
    (hm : s.isToolCallMode = true) :
    (procChunk model s chunk).isToolCallMode = true ∧
    (procChunk model s chunk).sentContent = s.sentContent ∧
    plainDeltas (procChunk model s chunk).frames = plainDeltas s.frames :=
  runLines_tool model _ hm

theorem foldChunks_tool {s : AggState} (model : Str) (chunks : List Str)
    (hm : s.isToolCallMode = true) :
    (chunks.foldl (procChunk model) s).isToolCallMode = true ∧
    (chunks.foldl (procChunk model) s).sentContent = s.sentContent ∧
    plainDeltas (chunks.foldl (procChunk model) s).frames = plainDeltas s.frames := by
  induction chunks generalizing s with
  | nil => exact ⟨hm, rfl, rfl⟩
  | cons c rest ih =>
    obtain ⟨m1, m2, m3⟩ := procChunk_tool model c hm
    obtain ⟨n1, n2, n3⟩ := ih m1
    exact ⟨n1, n2.trans m2, n3.trans m3⟩

theorem procChunk_sentApp (model : Str) (s : AggState) (chunk : Str) :
    ∃ t, (procChunk model s chunk).sentContent = s.sentContent ++ t :=
  runLines_sentApp model _ _

theorem foldChunks_sentApp (model : Str) (s : AggState) (chunks : List Str) :
    ∃ t, (chunks.foldl (procChunk model) s).sentContent = s.sentContent ++ t := by
  induction chunks generalizing s with
  | nil => exact ⟨[], by simp⟩
  | cons c rest ih =>
    obtain ⟨t1, h1⟩ := procChunk_sentApp model s c
    obtain ⟨t2, h2⟩ := ih (procChunk model s c)
    refine ⟨t1 ++ t2, ?_⟩
    show (List.foldl (procChunk model) (procChunk model s c) rest).sentContent = _
    rw [h2, h1, List.append_assoc]


theorem splitOnNl_ne_nil (s : Str) : splitOnNl s ≠ [] := by
  induction s with
  | nil => simp [splitOnNl]
  | cons c rest ih =>
    by_cases hc : c = '\n'
    · simp [splitOnNl, hc]
    · rcases h : splitOnNl rest with _ | ⟨p, ps⟩
      · simp [splitOnNl, hc, h]
      · simp [splitOnNl, hc, h]

/-- Splitting a concatenation: the complete lines of `a` followed by
the split of `a`'s trailing fragment glued to `b` — the algebra behind
carrying the line buffer across chunk boundaries. -/
theorem splitOnNl_append (a b : Str) :
    splitOnNl (a ++ b) =
      (splitOnNl a).dropLast ++ splitOnNl (((splitOnNl a).getLast?.getD []) ++ b) := by
  induction a with
  | nil => simp [splitOnNl]
  | cons c rest ih =>
    by_cases hc : c = '\n'
    · subst hc
      have lhs : splitOnNl (('\n' :: rest) ++ b) = [] :: splitOnNl (rest ++ b) := by
        simp [splitOnNl]
      have hsr : splitOnNl ('\n' :: rest) = [] :: splitOnNl rest := by
        simp [splitOnNl]
      rw [lhs, ih, hsr, List.dropLast_cons_of_ne_nil (splitOnNl_ne_nil rest)]
      rcases h : splitOnNl rest with _ | ⟨q, qs⟩
      · exact absurd h (splitOnNl_ne_nil rest)
      · simp
    · rcases h : splitOnNl rest with _ | ⟨q, qs⟩
      · exact absurd h (splitOnNl_ne_nil rest)
      · have hsr : splitOnNl (c :: rest) = (c :: q) :: qs := by
          rw [splitOnNl]
          simp only [if_neg hc, h]
        rcases hqs : qs with _ | ⟨q2, qs2⟩
        · subst hqs
          have hfrag : splitOnNl (rest ++ b) = splitOnNl (q ++ b) := by
            rw [ih, h]
            simp
          have lhs : splitOnNl ((c :: rest) ++ b) =
              (match splitOnNl (rest ++ b) with
               | [] => [[c]]
               | p :: ps => (c :: p) :: ps) := by
            rw [List.cons_append, splitOnNl]
            simp only [if_neg hc]
          rw [lhs, hfrag, hsr]
          rcases hqb : splitOnNl (q ++ b) with _ | ⟨p, ps⟩
          · exact absurd hqb (splitOnNl_ne_nil _)
          · have rhs2 : splitOnNl ((c :: q) ++ b) = (c :: p) :: ps := by
              rw [List.cons_append, splitOnNl]
              simp only [if_neg hc, hqb]
            simp
            exact rhs2.symm
        · subst hqs
          have lhs : splitOnNl ((c :: rest) ++ b) =
              (match splitOnNl (rest ++ b) with
               | [] => [[c]]
               | p :: ps => (c :: p) :: ps) := by
            rw [List.cons_append, splitOnNl]
            simp only [if_neg hc]
          have hmid : splitOnNl (rest ++ b) =
              q :: ((q2 :: qs2).dropLast ++
                splitOnNl (((q2 :: qs2).getLast?.getD []) ++ b)) := by
            rw [ih, h]
            simp [List.dropLast_cons_of_ne_nil]
          rw [lhs, hmid, hsr]
          have hne : ((q2 :: qs2).dropLast ++
              splitOnNl (((q2 :: qs2).getLast?.getD []) ++ b)) ≠ [] := by
            simp [splitOnNl_ne_nil]
          simp [List.dropLast_cons_of_ne_nil]


/-- Complete lines of a text: all split parts except the trailing
fragment. -/
def completeLines (text : Str) : List Str := (splitOnNl text).dropLast

/-- The trailing fragment after the last newline. -/
def lastFrag (text : Str) : Str := (splitOnNl text).getLast?.getD []

theorem sendContentChunk_buffer (model : Str) (s : AggState) (b content : Str) :
    sendContentChunk model { s with buffer := b } content =
      { sendContentChunk model s content with buffer := b } := by
  unfold sendContentChunk
  split_ifs <;> rfl

theorem procParsedLine_buffer (model : Str) (s : AggState) (p : Json) (b : Str) :
    procParsedLine model { s with buffer := b } p =
      { procParsedLine model s p with buffer := b } := by
  by_cases h1 : isErrorLine p = true
  · rw [procParsedLine, procParsedLine, if_pos h1, if_pos h1]
  · rw [procParsedLine, procParsedLine, if_neg h1, if_neg h1]
    by_cases h2 : lineContent p = []
    · rw [if_pos h2, if_pos h2]
    · rw [if_neg h2, if_neg h2]
      by_cases h3 : (if (!s.isToolCallMode) = true ∧ s.sentContent.length = 0 then
          looksLikeToolCall (s.fullContent ++ lineContent p)
        else s.isToolCallMode) = true
      · rw [if_pos h3, if_pos h3]
      · rw [if_neg h3, if_neg h3]
        exact sendContentChunk_buffer model
          { s with fullContent := s.fullContent ++ lineContent p } b (lineContent p)

theorem procRawLine_buffer (model : Str) (s : AggState) (line b : Str) :
    procRawLine model { s with buffer := b } line =
      { procRawLine model s line with buffer := b } := by
  unfold procRawLine
  split_ifs with h1
  · rfl
  · match jsonParse line with
    | none => rfl
    | some p => exact procParsedLine_buffer model s p b

theorem runLines_buffer (model : Str) (s : AggState) (b : Str) (lines : List Str) :
    runLines model { s with buffer := b } lines =
      { runLines model s lines with buffer := b } := by
  induction lines generalizing s with
  | nil => rfl
  | cons l rest ih =>
    show runLines model (procRawLine model { s with buffer := b } l) rest = _
    rw [procRawLine_buffer, ih (procRawLine model s l)]
    rfl

theorem procChunk_eq (model : Str) (s : AggState) (chunk : Str) :
    procChunk model s chunk =
      { runLines model s (completeLines (s.buffer ++ chunk)) with
        buffer := lastFrag (s.buffer ++ chunk) } := by
  show runLines model { s with buffer := (splitOnNl (s.buffer ++ chunk)).getLast?.getD [] }
        ((splitOnNl (s.buffer ++ chunk)).dropLast) = _
  rw [runLines_buffer]
  rfl

/-- Decoder correspondence: running the data handler over raw chunks
is running it over the complete lines of the concatenated stream, with
the trailing fragment left in the buffer (and discarded at stream
end, as the source does). -/
theorem runChunks_eq (model : Str) (chunks : List Str) :
    runChunks model chunks =
      { runLines model initAgg (completeLines chunks.flatten) with
        buffer := lastFrag chunks.flatten } := by
  induction chunks using List.reverseRecOn with
  | nil => rfl
  | append_singleton rest c ih =>
    have hfold : runChunks model (rest ++ [c]) = procChunk model (runChunks model rest) c := by
      unfold runChunks
      rw [List.foldl_append]
      rfl
    rw [hfold, ih, procChunk_eq]
    have hbuf : ({ runLines model initAgg (completeLines rest.flatten) with
        buffer := lastFrag rest.flatten } : AggState).buffer = lastFrag rest.flatten := rfl
    rw [hbuf, runLines_buffer]
    have htext : (rest ++ [c]).flatten = rest.flatten ++ c := List.flatten_concat rest c
    have hlines : completeLines (rest.flatten ++ c) =
        completeLines rest.flatten ++ completeLines (lastFrag rest.flatten ++ c) := by
      unfold completeLines
      rw [splitOnNl_append rest.flatten c]
      exact List.dropLast_append_of_ne_nil _ (splitOnNl_ne_nil _)
    have hfrag : lastFrag (rest.flatten ++ c) = lastFrag (lastFrag rest.flatten ++ c) := by
      unfold lastFrag
      rw [splitOnNl_append rest.flatten c]
      rw [List.getLast?_append_of_ne_nil _ (splitOnNl_ne_nil _)]
    rw [htext, hlines, hfrag]
    have hruns : runLines model initAgg
        (completeLines rest.flatten ++ completeLines (lastFrag rest.flatten ++ c)) =
        runLines model (runLines model initAgg (completeLines rest.flatten))
          (completeLines (lastFrag rest.flatten ++ c)) := by
      unfold runLines
      rw [List.foldl_append]
    rw [hruns]


theorem procParsedLine_full (model : Str) (s : AggState) (p : Json) :
    (procParsedLine model s p).fullContent =
      s.fullContent ++ (if isErrorLine p = true then [] else lineContent p) := by
  by_cases h2 : isErrorLine p = true
  · rw [procParsedLine, if_pos h2, if_pos h2]
    simp
  · rw [procParsedLine, if_neg h2, if_neg h2]
    by_cases h3 : lineContent p = []
    · rw [if_pos h3, h3]
      simp
    · rw [if_neg h3]
      by_cases h4 : (if (!s.isToolCallMode) = true ∧ s.sentContent.length = 0 then
          looksLikeToolCall (s.fullContent ++ lineContent p)
        else s.isToolCallMode) = true
      · rw [if_pos h4]
      · rw [if_neg h4, sendContentChunk, if_neg h3]

theorem procRawLine_full (model : Str) (s : AggState) (line : Str) :
    (procRawLine model s line).fullContent = s.fullContent ++ lineFragment line := by
  unfold procRawLine lineFragment
  split_ifs with h1
  · simp
  · match jsonParse line with
    | none => simp
    | some p => rw [procParsedLine_full]

theorem runLines_full (model : Str) (s : AggState) (lines : List Str) :
    (runLines model s lines).fullContent =
      s.fullContent ++ (lines.map lineFragment).flatten := by
  induction lines generalizing s with
  | nil => simp [runLines]
  | cons l rest ih =>
    show (runLines model (procRawLine model s l) rest).fullContent = _
    rw [ih, procRawLine_full]
    simp

/-- The accumulated text of a whole streamed response is the
concatenation of the per-line content fragments of its complete
lines. -/
theorem runChunks_full (model : Str) (chunks : List Str) :
    (runChunks model chunks).fullContent =
      ((completeLines chunks.flatten).map lineFragment).flatten := by
  rw [runChunks_eq]
  show (runLines model initAgg (completeLines chunks.flatten)).fullContent = _
  rw [runLines_full]
  rfl

theorem procEnd_flush (model : Str) (g : Nat → Str) (s : AggState)
    (hmode : s.isToolCallMode = true) (hbuf : s.toolCallBuffer = s.fullContent)
    (hne : s.fullContent ≠ []) (hparse : parseToolCalls g s.fullContent = none) :
    (procEnd model g s).frames =
      s.frames ++ [.contentDelta model s.isFirstChunk s.fullContent,
        .terminal model .stop, .done] := by
  rw [procEnd, hparse, procEndCore]
  have hcond : s.isToolCallMode = true ∧ s.toolCallBuffer ≠ [] := by
    refine ⟨hmode, ?_⟩
    rw [hbuf]
    exact hne
  rw [if_pos hcond, hbuf, sendContentChunk, if_neg hne]
  simp

theorem procEnd_tools (model : Str) (g : Nat → Str) (s : AggState) (calls : List ToolCall)
    (hparse : parseToolCalls g s.fullContent = some calls) (hne : calls ≠ []) :
    (procEnd model g s).frames =
      s.frames ++ toolCallFramesFrom model s.isFirstChunk 0 calls ++
        [.terminal model .toolCalls, .done] := by
  rw [procEnd, hparse, procEndCore]
  have hlen : calls.length > 0 := List.length_pos.mpr hne
  rw [if_pos hlen]
  show (sendToolCallsStream model s calls).frames ++ _ = _
  rw [sendToolCallsStream, if_neg hne]


theorem foldChunks_inv {s : AggState} (model : Str) (more : List Str) (h : AggInv s) :
    AggInv (more.foldl (procChunk model) s) := by
  induction more generalizing s with
  | nil => exact h
  | cons c rest ih => exact ih (procChunk_inv model c h)

/-- C1 (counterexample to the claim as stated): the string
`x} {"a":1}` contains the syntactically valid JSON object `{"a":1}`
surrounded by arbitrary text, yet the extractor returns `null` — the
stray `}` in the preceding text drives the brace depth negative. -/
theorem extractBalancedJson_stray_brace_cex :
    extractBalancedJson ("x\x7d ".data ++ jsonRender (Json.obj [(['a'], Json.num ['1'])])) 0 =
      none ∧
    jsonRender (Json.obj [(['a'], Json.num ['1'])]) = "\x7b\"a\":1\x7d".data := by
  constructor
  · decide
  · decide

/-- C1 (amended): for a start index at a prefix of characters that are
neither quotes, backslashes nor braces, followed by a syntactically
valid JSON object (rendered from a well-formed value, so string values
may contain braces and escaped quotes) and an arbitrary suffix, the
extractor returns exactly the object's substring; and it returns
`null` when the buffer ends before the object's depth returns to zero
(closing brace missing). -/
theorem extractBalancedJson_correct (p suffix : Str) (fs : List (Str × Json))
    (hp : p.all scanPlain = true) (hwf : jsonWF (Json.obj fs) = true) :
    extractBalancedJson (p ++ jsonRender (Json.obj fs) ++ suffix) 0 =
      some (jsonRender (Json.obj fs)) ∧
    extractBalancedJson (p ++ ('{' :: renderFields fs)) 0 = none := by
  have hp' : ∀ c ∈ p, scanPlain c = true := fun c hc => List.all_eq_true.mp hp c hc
  constructor
  · have hsh : p ++ jsonRender (Json.obj fs) ++ suffix =
        p ++ ('{' :: (renderFields fs ++ ('}' :: suffix))) := by
      simp [jsonRender]
    rw [hsh, extractBalancedJson_neutral p _ suffix hp' (neutral_renderFields fs hwf)]
    have hobj : ('{' :: (renderFields fs ++ ['}'])) = jsonRender (Json.obj fs) := by
      simp [jsonRender]
    rw [hobj]
  · exact extractBalancedJson_unterminated p _ hp' (neutral_renderFields fs hwf)

/-- Witness for C1: a concrete prefix, object with in-string braces and
an escaped quote, and suffix. -/
theorem extractBalancedJson_correct_witness :
    ("note: ".data.all scanPlain = true) ∧
    (jsonWF (Json.obj [(['a'], Json.str "x\x7b\x7d\"y".data)]) = true) ∧
    (extractBalancedJson ("note: ".data ++
        jsonRender (Json.obj [(['a'], Json.str "x\x7b\x7d\"y".data)]) ++ " tail".data) 0 =
      some (jsonRender (Json.obj [(['a'], Json.str "x\x7b\x7d\"y".data)])) ∧
     extractBalancedJson ("note: ".data ++
        ('{' :: renderFields [(['a'], Json.str "x\x7b\x7d\"y".data)])) 0 = none) :=
  ⟨by decide, by decide,
    extractBalancedJson_correct "note: ".data " tail".data
      [(['a'], Json.str "x\x7b\x7d\"y".data)] (by decide) (by decide)⟩

/-- C2: once a stream enters TOOL_CANDIDATE mode, processing any
further chunks keeps the mode, emits no further plain content delta,
extends `sentContent` only by appending, and keeps `sentContent` no
longer than the accumulated text. -/
theorem aggregator_mode_one_way (model : Str) (chunks more : List Str)
    (hmode : (runChunks model chunks).isToolCallMode = true) :
    (more.foldl (procChunk model) (runChunks model chunks)).isToolCallMode = true ∧
    plainDeltas (more.foldl (procChunk model) (runChunks model chunks)).frames =
      plainDeltas (runChunks model chunks).frames ∧
    (runChunks model chunks).sentContent.isPrefixOf
      (more.foldl (procChunk model) (runChunks model chunks)).sentContent = true ∧
    (more.foldl (procChunk model) (runChunks model chunks)).sentContent.length ≤
      (more.foldl (procChunk model) (runChunks model chunks)).fullContent.length := by
  obtain ⟨m1, m2, m3⟩ := foldChunks_tool model more hmode
  refine ⟨m1, m3, ?_, ?_⟩
  · obtain ⟨t, ht⟩ := foldChunks_sentApp model (runChunks model chunks) more
    rw [ht]
    exact isPrefixOf_app _ _
  · have hinv : AggInv (more.foldl (procChunk model) (runChunks model chunks)) :=
      foldChunks_inv model more (runChunks_inv model chunks)
    rw [hinv.tool_sent m1]
    simp

/-- A chunk whose single line carries `theContent` starting like a tool
call, driving the aggregator into TOOL_CANDIDATE mode. -/
def exToolChunk : Str :=
  "\x7b\"msgItem\":\x7b\"theContent\":\"\x7b\\\"tool_calls\\\"\"\x7d\x7d\n".data

/-- A chunk whose single line carries plain `theContent`. -/
def exPlainChunk : Str :=
  "\x7b\"msgItem\":\x7b\"theContent\":\"x\"\x7d\x7d\n".data

/-- Witness for C2 at a concrete tool-call-looking stream. -/
theorem aggregator_mode_one_way_witness :
    (runChunks "m".data [exToolChunk]).isToolCallMode = true ∧
    (([exPlainChunk].foldl (procChunk "m".data)
        (runChunks "m".data [exToolChunk])).isToolCallMode = true ∧
      plainDeltas ([exPlainChunk].foldl (procChunk "m".data)
          (runChunks "m".data [exToolChunk])).frames =
        plainDeltas (runChunks "m".data [exToolChunk]).frames ∧
      (runChunks "m".data [exToolChunk]).sentContent.isPrefixOf
        ([exPlainChunk].foldl (procChunk "m".data)
          (runChunks "m".data [exToolChunk])).sentContent = true ∧
      ([exPlainChunk].foldl (procChunk "m".data)
          (runChunks "m".data [exToolChunk])).sentContent.length ≤
        ([exPlainChunk].foldl (procChunk "m".data)
          (runChunks "m".data [exToolChunk])).fullContent.length) :=
  ⟨by decide, aggregator_mode_one_way "m".data [exToolChunk] [exPlainChunk] (by decide)⟩

/-- C3: when a TOOL_CANDIDATE stream fails normalization at its end,
the entire buffered text — byte-for-byte the concatenation of all
appended content fragments — is delivered as one plain content delta
followed by a `stop` terminal and the end sentinel. -/
theorem aggregator_fail_open (model : Str) (g : Nat → Str) (chunks : List Str)
    (hmode : (runChunks model chunks).isToolCallMode = true)
    (hparse : parseToolCalls g (runChunks model chunks).fullContent = none) :
    (procEnd model g (runChunks model chunks)).frames =
      (runChunks model chunks).frames ++
        [.contentDelta model (runChunks model chunks).isFirstChunk
            (runChunks model chunks).fullContent,
          .terminal model .stop, .done] ∧
    (runChunks model chunks).fullContent =
      ((completeLines chunks.flatten).map lineFragment).flatten := by
  have hinv := runChunks_inv model chunks
  obtain ⟨hbuf, hne⟩ := hinv.tool_buf hmode
  exact ⟨procEnd_flush model g _ hmode hbuf hne hparse, runChunks_full model chunks⟩

/-- Witness for C3 at a concrete failing tool-call-looking stream. -/
theorem aggregator_fail_open_witness :
    (runChunks "m".data [exToolChunk]).isToolCallMode = true ∧
    parseToolCalls (fun _ => "id".data)
      (runChunks "m".data [exToolChunk]).fullContent = none ∧
    ((procEnd "m".data (fun _ => "id".data) (runChunks "m".data [exToolChunk])).frames =
      (runChunks "m".data [exToolChunk]).frames ++
        [.contentDelta "m".data (runChunks "m".data [exToolChunk]).isFirstChunk
            (runChunks "m".data [exToolChunk]).fullContent,
          .terminal "m".data .stop, .done] ∧
     (runChunks "m".data [exToolChunk]).fullContent =
      ((completeLines [exToolChunk].flatten).map lineFragment).flatten) :=
  ⟨by decide, by decide,
    aggregator_fail_open "m".data (fun _ => "id".data) [exToolChunk] (by decide) (by decide)⟩


theorem chunksOfGo_flatten (n : Nat) : ∀ (fuel : Nat) (s : Str),
    (chunksOfGo n fuel s).flatten = s := by
  intro fuel
  induction fuel with
  | zero =>
    intro s
    match s with
    | [] => rfl
    | c :: rest => simp [chunksOfGo]
  | succ fuel ih =>
    intro s
    match s with
    | [] => rfl
    | c :: rest =>
      rw [chunksOfGo]
      by_cases hn : n = 0
      · rw [if_pos hn]; simp
      · rw [if_neg hn]
        simp only [List.flatten_cons, ih]
        exact List.take_append_drop n (c :: rest)

/-- The argument slices of one tool call concatenate back to the
arguments string (after the `|| '{}'` fallback). -/
theorem argChunksOf_flatten (arguments : Str) :
    (argChunksOf arguments).flatten =
      (if arguments = [] then "\x7b\x7d".data else arguments) := by
  unfold argChunksOf chunksOf
  exact chunksOfGo_flatten 50 _ _

theorem chunksOfGo_mem (n : Nat) (hn : 0 < n) : ∀ (fuel : Nat) (s : Str),
    s.length ≤ fuel → ∀ ch ∈ chunksOfGo n fuel s, ch.length ≤ n ∧ ch ≠ [] := by
  intro fuel
  induction fuel with
  | zero =>
    intro s hlen ch hch
    match s with
    | [] => simp [chunksOfGo] at hch
    | c :: rest => simp at hlen
  | succ fuel ih =>
    intro s hlen ch hch
    match s with
    | [] => simp [chunksOfGo] at hch
    | c :: rest =>
      rw [chunksOfGo, if_neg (Nat.pos_iff_ne_zero.mp hn)] at hch
      rcases List.mem_cons.mp hch with hch | hch
      · subst hch
        constructor
        · simp
        · simp
          omega
      · refine ih ((c :: rest).drop n) ?_ ch hch
        simp only [List.length_drop, List.length_cons]
        simp only [List.length_cons] at hlen
        omega

theorem argChunksOf_mem (arguments : Str) :
    (argChunksOf arguments) ≠ [] ∧
    ∀ ch ∈ argChunksOf arguments, ch.length ≤ 50 ∧ ch ≠ [] := by
  constructor
  · unfold argChunksOf chunksOf
    by_cases h : arguments = []
    · rw [if_pos h]; decide
    · rw [if_neg h]
      match arguments with
      | [] => exact absurd rfl h
      | c :: rest =>
        simp [chunksOfGo]
  · exact fun ch hch => chunksOfGo_mem 50 (by omega) _ _ (le_refl _) ch hch

/-- The identifying fields of the initial frame of tool call `j`. -/
def startInfoFor (j : Nat) : Frame → Option (Json × Json × Option Json × Str)
  | .toolStart _ _ i id ty nm arguments =>
    if i = j then some (id, ty, nm, arguments) else none
  | _ => none

/-- The argument chunks carried by frames of tool call `j`. -/
def argChunksFor (j : Nat) (fr : List Frame) : List Str :=
  fr.filterMap (fun f =>
    match f with
    | .toolArgs _ i chunk => if i = j then some chunk else none
    | _ => none)

/-- Frames written during the data phase (never tool-call frames). -/
def isStreamDataFrame : Frame → Bool
  | .contentDelta _ _ _ => true
  | .errorUnit _ _ => true
  | _ => false

theorem procParsedLine_dataFrames {s : AggState} (model : Str) (p : Json)
    (h : s.frames.all isStreamDataFrame = true) :
    (procParsedLine model s p).frames.all isStreamDataFrame = true := by
  by_cases h1 : isErrorLine p = true
  · rw [procParsedLine, if_pos h1]
    simp only [List.all_append, h]
    simp [isStreamDataFrame]
  · rw [procParsedLine, if_neg h1]
    by_cases h2 : lineContent p = []
    · rw [if_pos h2]; exact h
    · rw [if_neg h2]
      by_cases h3 : (if (!s.isToolCallMode) = true ∧ s.sentContent.length = 0 then
          looksLikeToolCall (s.fullContent ++ lineContent p)
        else s.isToolCallMode) = true
      · rw [if_pos h3]; exact h
      · rw [if_neg h3, sendContentChunk, if_neg h2]
        simp only [List.all_append, h]
        simp [isStreamDataFrame]

theorem runChunks_dataFrames (model : Str) (chunks : List Str) :
    (runChunks model chunks).frames.all isStreamDataFrame = true := by
  have step : ∀ (line : Str) (s : AggState), s.frames.all isStreamDataFrame = true →
      (procRawLine model s line).frames.all isStreamDataFrame = true := by
    intro line s hs
    unfold procRawLine
    split_ifs with h1
    · exact hs
    · match jsonParse line with
      | none => exact hs
      | some p => exact procParsedLine_dataFrames model p hs
  have hlines : ∀ (lines : List Str) (s : AggState), s.frames.all isStreamDataFrame = true →
      (runLines model s lines).frames.all isStreamDataFrame = true := by
    intro lines
    induction lines with
    | nil => intro s hs; exact hs
    | cons l rest ih => intro s hs; exact ih _ (step l s hs)
  have hchunks : ∀ (cs : List Str) (s : AggState), s.frames.all isStreamDataFrame = true →
      ((cs.foldl (procChunk model) s).frames.all isStreamDataFrame = true) := by
    intro cs
    induction cs with
    | nil => intro s hs; exact hs
    | cons c rest ih =>
      intro s hs
      refine ih _ ?_
      rw [procChunk_eq]
      exact hlines _ _ hs
  exact hchunks chunks initAgg rfl


theorem argChunksFor_append (j : Nat) (a b : List Frame) :
    argChunksFor j (a ++ b) = argChunksFor j a ++ argChunksFor j b := by
  simp [argChunksFor]

theorem argChunksFor_lt (model : Str) : ∀ (calls : List ToolCall) (first : Bool)
    (idx0 j : Nat), j < idx0 →
    argChunksFor j (toolCallFramesFrom model first idx0 calls) = [] := by
  intro calls
  induction calls with
  | nil => intro _ _ j _; rfl
  | cons tc rest ih =>
    intro first idx0 j hj
    rw [toolCallFramesFrom, argChunksFor_append]
    have hne : ¬(idx0 = j) := by omega
    have h1 : argChunksFor j
        (Frame.toolStart model first idx0 tc.id tc.type tc.name [] ::
          (argChunksOf tc.arguments).map (Frame.toolArgs model idx0)) = [] := by
      simp [argChunksFor, List.filterMap_cons, List.filterMap_map, Function.comp, hne]
    rw [h1]
    simp only [List.nil_append]
    exact ih false (idx0 + 1) j (by omega)

theorem argChunksFor_tcf (model : Str) : ∀ (calls : List ToolCall) (first : Bool)
    (idx0 k : Nat) (hk : k < calls.length),
    argChunksFor (idx0 + k) (toolCallFramesFrom model first idx0 calls) =
      argChunksOf (calls.get ⟨k, hk⟩).arguments := by
  intro calls
  induction calls with
  | nil => intro _ _ k hk; simp at hk
  | cons tc rest ih =>
    intro first idx0 k hk
    rw [toolCallFramesFrom, argChunksFor_append]
    match k with
    | 0 =>
      have h1 : argChunksFor (idx0 + 0)
          (Frame.toolStart model first idx0 tc.id tc.type tc.name [] ::
            (argChunksOf tc.arguments).map (Frame.toolArgs model idx0)) =
          argChunksOf tc.arguments := by
        simp [argChunksFor, List.filterMap_cons, List.filterMap_map, Function.comp_def]
      have h2 : argChunksFor (idx0 + 0) (toolCallFramesFrom model false (idx0 + 1) rest) =
          [] :=
        argChunksFor_lt model rest false (idx0 + 1) (idx0 + 0) (by omega)
      rw [h1, h2]
      simp
    | k' + 1 =>
      have hne : ¬(idx0 = idx0 + (k' + 1)) := by omega
      have h1 : argChunksFor (idx0 + (k' + 1))
          (Frame.toolStart model first idx0 tc.id tc.type tc.name [] ::
            (argChunksOf tc.arguments).map (Frame.toolArgs model idx0)) = [] := by
        simp [argChunksFor, List.filterMap_cons, List.filterMap_map, Function.comp, hne]
      rw [h1]
      simp only [List.nil_append]
      have harith : idx0 + (k' + 1) = (idx0 + 1) + k' := by omega
      rw [harith]
      exact ih false (idx0 + 1) k' (by simpa using Nat.lt_of_succ_lt_succ hk)

theorem startInfoFor_lt (model : Str) : ∀ (calls : List ToolCall) (first : Bool)
    (idx0 j : Nat), j < idx0 →
    (toolCallFramesFrom model first idx0 calls).filterMap (startInfoFor j) = [] := by
  intro calls
  induction calls with
  | nil => intro _ _ j _; rfl
  | cons tc rest ih =>
    intro first idx0 j hj
    rw [toolCallFramesFrom, List.filterMap_append]
    have hne : ¬(idx0 = j) := by omega
    have h1 : (Frame.toolStart model first idx0 tc.id tc.type tc.name [] ::
          (argChunksOf tc.arguments).map (Frame.toolArgs model idx0)).filterMap
        (startInfoFor j) = [] := by
      simp [startInfoFor, List.filterMap_cons, List.filterMap_map, Function.comp, hne]
    rw [h1]
    simp only [List.nil_append]
    exact ih false (idx0 + 1) j (by omega)

theorem startInfoFor_tcf (model : Str) : ∀ (calls : List ToolCall) (first : Bool)
    (idx0 k : Nat) (hk : k < calls.length),
    (toolCallFramesFrom model first idx0 calls).filterMap (startInfoFor (idx0 + k)) =
      [((calls.get ⟨k, hk⟩).id, (calls.get ⟨k, hk⟩).type,
        (calls.get ⟨k, hk⟩).name, ([] : Str))] := by
  intro calls
  induction calls with
  | nil => intro _ _ k hk; simp at hk
  | cons tc rest ih =>
    intro first idx0 k hk
    rw [toolCallFramesFrom, List.filterMap_append]
    match k with
    | 0 =>
      have h1 : (Frame.toolStart model first idx0 tc.id tc.type tc.name [] ::
            (argChunksOf tc.arguments).map (Frame.toolArgs model idx0)).filterMap
          (startInfoFor (idx0 + 0)) = [(tc.id, tc.type, tc.name, ([] : Str))] := by
        simp [startInfoFor, List.filterMap_cons, List.filterMap_map, Function.comp]
      have h2 : (toolCallFramesFrom model false (idx0 + 1) rest).filterMap
          (startInfoFor (idx0 + 0)) = [] :=
        startInfoFor_lt model rest false (idx0 + 1) (idx0 + 0) (by omega)
      rw [h1, h2]
      simp
    | k' + 1 =>
      have hne : ¬(idx0 = idx0 + (k' + 1)) := by omega
      have h1 : (Frame.toolStart model first idx0 tc.id tc.type tc.name [] ::
            (argChunksOf tc.arguments).map (Frame.toolArgs model idx0)).filterMap
          (startInfoFor (idx0 + (k' + 1))) = [] := by
        simp [startInfoFor, List.filterMap_cons, List.filterMap_map, Function.comp, hne]
      rw [h1]
      simp only [List.nil_append]
      have harith : idx0 + (k' + 1) = (idx0 + 1) + k' := by omega
      rw [harith]
      exact ih false (idx0 + 1) k' (by simpa using Nat.lt_of_succ_lt_succ hk)

theorem dataFrames_aux (j : Nat) (fr : List Frame)
    (h : fr.all isStreamDataFrame = true) :
    argChunksFor j fr = [] ∧ fr.filterMap (startInfoFor j) = [] ∧ plainDeltas fr =
      fr.filter isPlainDelta := by
  refine ⟨?_, ?_, rfl⟩
  · induction fr with
    | nil => rfl
    | cons f rest ih =>
      simp only [List.all_cons, Bool.and_eq_true] at h
      cases f <;> simp_all [argChunksFor, isStreamDataFrame, List.filterMap_cons]
  · induction fr with
    | nil => rfl
    | cons f rest ih =>
      simp only [List.all_cons, Bool.and_eq_true] at h
      cases f <;> simp_all [startInfoFor, isStreamDataFrame, List.filterMap_cons]

theorem tcf_no_plain (model : Str) : ∀ (calls : List ToolCall) (first : Bool) (idx0 : Nat),
    plainDeltas (toolCallFramesFrom model first idx0 calls) = [] := by
  intro calls
  induction calls with
  | nil => intro _ _; rfl
  | cons tc rest ih =>
    intro first idx0
    rw [toolCallFramesFrom, plainDeltas_append]
    have h1 : plainDeltas (Frame.toolStart model first idx0 tc.id tc.type tc.name [] ::
        (argChunksOf tc.arguments).map (Frame.toolArgs model idx0)) = [] := by
      simp [plainDeltas, isPlainDelta, List.filter_cons, List.filter_map]
    rw [h1]
    simp only [List.nil_append]
    exact ih false (idx0 + 1)


/-- C8 (counterexample to the claim as stated): a normalized call whose
arguments string is empty (the upstream supplied `"arguments": ""`)
is streamed with argument chunks concatenating to `{}`, not to the
call's (empty) arguments string, because of the `|| '{}'` fallback. -/
theorem toolCallStream_empty_args_cex :
    parseToolCalls (fun _ => "gid".data)
      "\x7b\"tool_calls\":[\x7b\"function\":\x7b\"name\":\"f\",\"arguments\":\"\"\x7d\x7d]\x7d".data =
      some [⟨Json.str "gid".data, Json.str "function".data, some (Json.str ['f']), []⟩] ∧
    (argChunksFor 0 (toolCallFramesFrom "m".data true 0
        [⟨Json.str "gid".data, Json.str "function".data, some (Json.str ['f']), []⟩])).flatten =
      "\x7b\x7d".data ∧
    ("\x7b\x7d".data : Str) ≠ [] :=
  ⟨by decide, by decide, by decide⟩

/-- C8 (amended): for a stream recognized as a tool call before any
emission and normalizing to a nonempty call list, the response contains
no plain content delta; the end handler appends, per call, one initial
frame carrying the call's identifier, type and name with an empty
arguments string, followed by argument-chunk frames of at most 50
characters each whose concatenation is the call's arguments string —
with an empty arguments string replaced by `{}` — and closes with a
`tool_calls` terminal and the end sentinel. -/
theorem toolCallStream_encoding (model : Str) (g : Nat → Str) (chunks : List Str)
    (calls : List ToolCall) (k : Nat)
    (hmode : (runChunks model chunks).isToolCallMode = true)
    (hparse : parseToolCalls g (runChunks model chunks).fullContent = some calls)
    (hne : calls ≠ []) (hk : k < calls.length) :
    plainDeltas (procEnd model g (runChunks model chunks)).frames = [] ∧
    (procEnd model g (runChunks model chunks)).frames =
      (runChunks model chunks).frames ++
        toolCallFramesFrom model (runChunks model chunks).isFirstChunk 0 calls ++
        [.terminal model .toolCalls, .done] ∧
    (procEnd model g (runChunks model chunks)).frames.filterMap (startInfoFor k) =
      [((calls.get ⟨k, hk⟩).id, (calls.get ⟨k, hk⟩).type, (calls.get ⟨k, hk⟩).name,
        ([] : Str))] ∧
    (argChunksFor k (procEnd model g (runChunks model chunks)).frames).flatten =
      (if (calls.get ⟨k, hk⟩).arguments = [] then "\x7b\x7d".data
       else (calls.get ⟨k, hk⟩).arguments) ∧
    argChunksFor k (procEnd model g (runChunks model chunks)).frames ≠ [] ∧
    ∀ ch ∈ argChunksFor k (procEnd model g (runChunks model chunks)).frames,
      ch.length ≤ 50 ∧ ch ≠ [] := by
  have hframes := procEnd_tools model g (runChunks model chunks) calls hparse hne
  have hdata := runChunks_dataFrames model chunks
  have hinv := runChunks_inv model chunks
  obtain ⟨hdat1, hdat2, _⟩ := dataFrames_aux k (runChunks model chunks).frames hdata
  have hterm1 : argChunksFor k [Frame.terminal model .toolCalls, Frame.done] = [] := rfl
  have hterm2 : ([Frame.terminal model .toolCalls, Frame.done] : List Frame).filterMap
      (startInfoFor k) = [] := rfl
  have hstart := startInfoFor_tcf model calls (runChunks model chunks).isFirstChunk 0 k
    (by omega)
  simp only [Nat.zero_add] at hstart
  have hargs := argChunksFor_tcf model calls (runChunks model chunks).isFirstChunk 0 k
    (by omega)
  simp only [Nat.zero_add] at hargs
  refine ⟨?_, hframes, ?_, ?_, ?_, ?_⟩
  · rw [hframes, plainDeltas_append, plainDeltas_append]
    rw [hinv.no_deltas (hinv.tool_sent hmode), tcf_no_plain]
    rfl
  · rw [hframes, List.filterMap_append, List.filterMap_append, hdat2, hterm2]
    rw [List.nil_append, List.append_nil]
    exact hstart
  · rw [hframes, argChunksFor_append, argChunksFor_append, hdat1, hterm1]
    rw [List.nil_append, List.append_nil, hargs]
    exact argChunksOf_flatten _
  · rw [hframes, argChunksFor_append, argChunksFor_append, hdat1, hterm1]
    rw [List.nil_append, List.append_nil, hargs]
    exact (argChunksOf_mem _).1
  · rw [hframes, argChunksFor_append, argChunksFor_append, hdat1, hterm1]
    rw [List.nil_append, List.append_nil, hargs]
    exact (argChunksOf_mem _).2

/-- A chunk whose single line reconstructs a complete embedded tool
call. -/
def exFullToolChunk : Str :=
  "\x7b\"msgItem\":\x7b\"theContent\":\"\x7b\\\"tool_calls\\\":[\x7b\\\"name\\\":\\\"lookup\\\",\\\"arguments\\\":\x7b\\\"q\\\":\\\"x\\\"\x7d\x7d]\x7d\"\x7d\x7d\n".data

/-- Witness for C8 at a concrete embedded tool call. -/
theorem toolCallStream_encoding_witness :
    (runChunks "m".data [exFullToolChunk]).isToolCallMode = true ∧
    parseToolCalls (fun _ => "gid".data)
      (runChunks "m".data [exFullToolChunk]).fullContent =
      some [⟨Json.str "gid".data, Json.str "function".data,
        some (Json.str "lookup".data), "\x7b\"q\":\"x\"\x7d".data⟩] ∧
    (plainDeltas (procEnd "m".data (fun _ => "gid".data)
        (runChunks "m".data [exFullToolChunk])).frames = [] ∧
      (procEnd "m".data (fun _ => "gid".data)
          (runChunks "m".data [exFullToolChunk])).frames =
        (runChunks "m".data [exFullToolChunk]).frames ++
          toolCallFramesFrom "m".data
            (runChunks "m".data [exFullToolChunk]).isFirstChunk 0
            [⟨Json.str "gid".data, Json.str "function".data,
              some (Json.str "lookup".data), "\x7b\"q\":\"x\"\x7d".data⟩] ++
          [.terminal "m".data .toolCalls, .done] ∧
      (procEnd "m".data (fun _ => "gid".data)
          (runChunks "m".data [exFullToolChunk])).frames.filterMap (startInfoFor 0) =
        [(Json.str "gid".data, Json.str "function".data,
          some (Json.str "lookup".data), ([] : Str))] ∧
      (argChunksFor 0 (procEnd "m".data (fun _ => "gid".data)
          (runChunks "m".data [exFullToolChunk])).frames).flatten =
        (if ("\x7b\"q\":\"x\"\x7d".data : Str) = [] then "\x7b\x7d".data
         else "\x7b\"q\":\"x\"\x7d".data) ∧
      argChunksFor 0 (procEnd "m".data (fun _ => "gid".data)
          (runChunks "m".data [exFullToolChunk])).frames ≠ [] ∧
      ∀ ch ∈ argChunksFor 0 (procEnd "m".data (fun _ => "gid".data)
          (runChunks "m".data [exFullToolChunk])).frames,
        ch.length ≤ 50 ∧ ch ≠ []) :=
  ⟨by decide, by decide,
    toolCallStream_encoding "m".data (fun _ => "gid".data) [exFullToolChunk]
      [⟨Json.str "gid".data, Json.str "function".data,
        some (Json.str "lookup".data), "\x7b\"q\":\"x\"\x7d".data⟩] 0
      (by decide) (by decide) (by decide) (by decide)⟩


mutual

/-- All subvalues of a parsed value (itself included). -/
def jsonSubvalues : Json → List Json
  | .arr es => .arr es :: jsonSubvaluesList es
  | .obj fs => .obj fs :: jsonSubvaluesFields fs
  | j => [j]

/-- Subvalues of array elements. -/
def jsonSubvaluesList : List Json → List Json
  | [] => []
  | e :: rest => jsonSubvalues e ++ jsonSubvaluesList rest

/-- Subvalues of object member values. -/
def jsonSubvaluesFields : List (Str × Json) → List Json
  | [] => []
  | kv :: rest => jsonSubvalues kv.2 ++ jsonSubvaluesFields rest

end

theorem sub_self (j : Json) : j ∈ jsonSubvalues j := by
  cases j <;> simp [jsonSubvalues]

theorem subList_mem {e : Json} {es : List Json} (h : e ∈ es) :
    ∀ x ∈ jsonSubvalues e, x ∈ jsonSubvaluesList es := by
  induction es with
  | nil => simp at h
  | cons e2 rest ih =>
    intro x hx
    rcases List.mem_cons.mp h with h | h
    · subst h
      exact List.mem_append_left _ hx
    · exact List.mem_append_right _ (ih h x hx)

theorem subFields_mem {kv : Str × Json} {fs : List (Str × Json)} (h : kv ∈ fs) :
    ∀ x ∈ jsonSubvalues kv.2, x ∈ jsonSubvaluesFields fs := by
  induction fs with
  | nil => simp at h
  | cons kv2 rest ih =>
    intro x hx
    rcases List.mem_cons.mp h with h | h
    · subst h
      exact List.mem_append_left _ hx
    · exact List.mem_append_right _ (ih h x hx)

theorem objGet_sub {p : Json} {k : Str} {v : Json} (h : objGet p k = some v) :
    ∀ x ∈ jsonSubvalues v, x ∈ jsonSubvalues p := by
  match p with
  | .obj fs =>
    intro x hx
    rw [objGet] at h
    split at h
    · rename_i kv hkv
      have hmem : kv ∈ fs := by
        have := List.mem_of_find?_eq_some hkv
        simpa using this
      have hv : v = kv.2 := by
        simpa using h.symm
      subst hv
      rw [jsonSubvalues]
      exact List.mem_cons_of_mem _ (subFields_mem hmem x hx)
    · simp at h
  | .null | .bool _ | .num _ | .str _ | .arr _ =>
    intro x hx
    simp [objGet] at h

theorem arrElem_sub {es : List Json} {e : Json} (h : e ∈ es) :
    ∀ x ∈ jsonSubvalues e, x ∈ jsonSubvalues (.arr es) := by
  intro x hx
  rw [jsonSubvalues]
  exact List.mem_cons_of_mem _ (subList_mem h x hx)

theorem mem_of_mem_mapIdx {α β : Type} {f : Nat → α → β} {l : List α} {b : β}
    (h : b ∈ List.mapIdx f l) : ∃ i a, a ∈ l ∧ b = f i a := by
  rw [List.mapIdx_eq_enum_map] at h
  obtain ⟨⟨i, a⟩, hmem, rfl⟩ := List.mem_map.mp h
  refine ⟨i, a, ?_, rfl⟩
  have := List.mk_mem_enum_iff_get?.mp hmem
  exact List.get?_mem this


/-- A descriptor's arguments string is either a `JSON.stringify`
serialization or a string taken verbatim from the parsed upstream
payload. -/
def ArgsProperty (tc : ToolCall) : Prop :=
  (∃ v : Json, tc.arguments = jsonRender v) ∨
  (∃ (src : Str) (p : Json), jsonParse src = some p ∧
    Json.str tc.arguments ∈ jsonSubvalues p)

theorem normalizeTc_arguments (g : Nat → Str) (i : Nat) (t : Json) :
    (∃ v : Json, (normalizeTc g i t).arguments = jsonRender v) ∨
    (∃ f s, objGet t "function".data = some f ∧
      objGet f "arguments".data = some (.str s) ∧ (normalizeTc g i t).arguments = s) := by
  rcases hfa : (objGet t "function".data).bind (objGet · "arguments".data) with _ | v
  · left
    exact ⟨jsOrJ none (jsOrJ (objGet t "arguments".data) (Json.obj [])),
      by simp [normalizeTc, hfa]⟩
  · match v with
    | .str str =>
      right
      obtain ⟨f, hf, hargs⟩ := Option.bind_eq_some.mp hfa
      exact ⟨f, str, hf, hargs, by simp [normalizeTc, hfa]⟩
    | .null =>
      exact Or.inl ⟨jsOrJ (some Json.null) (jsOrJ (objGet t "arguments".data) (Json.obj [])),
        by simp [normalizeTc, hfa]⟩
    | .bool b =>
      exact Or.inl ⟨jsOrJ (some (Json.bool b))
        (jsOrJ (objGet t "arguments".data) (Json.obj [])), by simp [normalizeTc, hfa]⟩
    | .num lit =>
      exact Or.inl ⟨jsOrJ (some (Json.num lit))
        (jsOrJ (objGet t "arguments".data) (Json.obj [])), by simp [normalizeTc, hfa]⟩
    | .arr es =>
      exact Or.inl ⟨jsOrJ (some (Json.arr es))
        (jsOrJ (objGet t "arguments".data) (Json.obj [])), by simp [normalizeTc, hfa]⟩
    | .obj fs =>
      exact Or.inl ⟨jsOrJ (some (Json.obj fs))
        (jsOrJ (objGet t "arguments".data) (Json.obj [])), by simp [normalizeTc, hfa]⟩

theorem normalized_list_props (g : Nat → Str) (tcs : List Json) (src : Str) (parsed : Json)
    (hsrc : jsonParse src = some parsed)
    (harr : objGet parsed "tool_calls".data = some (.arr tcs)) :
    ∀ tc ∈ tcs.mapIdx (fun i t => normalizeTc g i t), ArgsProperty tc := by
  intro tc htc
  obtain ⟨i, t, ht, rfl⟩ := mem_of_mem_mapIdx htc
  rcases normalizeTc_arguments g i t with h | ⟨f, str, hf, hargs, harg⟩
  · exact Or.inl h
  · right
    refine ⟨src, parsed, hsrc, ?_⟩
    rw [harg]
    exact objGet_sub harr _ (arrElem_sub ht _ (objGet_sub hf _ (objGet_sub hargs _
      (sub_self (.str str)))))

theorem strategy1_props (g : Nat → Str) (content : Str) (calls : List ToolCall)
    (h : strategy1 g content = some calls) : ∀ tc ∈ calls, ArgsProperty tc := by
  rw [strategy1] at h
  split at h
  · exact Option.noConfusion h
  · split at h
    · split at h
      · split at h
        · split at h
          · rename_i tcs _
            obtain rfl : (tcs.mapIdx fun i t => normalizeTc g i t) = calls :=
              Option.some.inj h
            exact normalized_list_props g tcs _ _ (by assumption) (by assumption)
          · exact Option.noConfusion h
        · exact Option.noConfusion h
      · exact Option.noConfusion h
    · exact Option.noConfusion h

theorem strategy2_props (g : Nat → Str) (content : Str) (calls : List ToolCall)
    (h : strategy2 g content = some calls) : ∀ tc ∈ calls, ArgsProperty tc := by
  rw [strategy2] at h
  split at h
  · split at h
    · split at h
      · rename_i tcs _
        obtain rfl : (tcs.mapIdx fun i t => normalizeTc g i t) = calls :=
          Option.some.inj h
        exact normalized_list_props g tcs _ _ (by assumption) (by assumption)
      · exact Option.noConfusion h
    · exact Option.noConfusion h
  · exact Option.noConfusion h

theorem strategy3_props (g : Nat → Str) (content : Str) (calls : List ToolCall)
    (h : strategy3 g content = some calls) : ∀ tc ∈ calls, ArgsProperty tc := by
  rw [strategy3] at h
  split at h
  · split at h
    · split at h
      · rename_i parsed hparse
        obtain rfl := (Option.some.inj h).symm
        intro tc htc
        rcases List.mem_singleton.mp htc with rfl
        rw [ArgsProperty]
        rcases hargs : objGet parsed "arguments".data with _ | v
        · exact Or.inl ⟨jsOrJ none (Json.obj []), by simp [hargs]⟩
        · match v with
          | .str str =>
            right
            refine ⟨_, parsed, hparse, ?_⟩
            simp only [hargs]
            exact objGet_sub hargs _ (sub_self (.str str))
          | .null => exact Or.inl ⟨jsOrJ (some Json.null) (Json.obj []), by simp [hargs]⟩
          | .bool b =>
            exact Or.inl ⟨jsOrJ (some (Json.bool b)) (Json.obj []), by simp [hargs]⟩
          | .num lit =>
            exact Or.inl ⟨jsOrJ (some (Json.num lit)) (Json.obj []), by simp [hargs]⟩
          | .arr es =>
            exact Or.inl ⟨jsOrJ (some (Json.arr es)) (Json.obj []), by simp [hargs]⟩
          | .obj fs =>
            exact Or.inl ⟨jsOrJ (some (Json.obj fs)) (Json.obj []), by simp [hargs]⟩
      · exact Option.noConfusion h
    · exact Option.noConfusion h
  · exact Option.noConfusion h

/-- Identifier generator used in the C6 concrete examples. -/
def exC6G : Nat → Str := fun _ => "gid".data

/-- Concrete tool-call payload whose "arguments" field is the string
"oops", which is not a syntactically valid JSON text. -/
def exC6Bad : Str :=
  "\x7b\"tool_calls\":[\x7b\"function\":\x7b\"name\":\"f\",\"arguments\":\"oops\"\x7d\x7d]\x7d".data

/-- Result of the normalizer on `exC6Bad`. -/
def exC6Calls : List ToolCall :=
  [⟨Json.str "gid".data, Json.str "function".data,
    some (Json.str "f".data), "oops".data⟩]

/-- C6 counterexample: the normalizer (`parseToolCalls`, `server.js:506-594`)
passes a string-valued `arguments` field through verbatim, so the emitted
descriptor can carry arguments that are NOT a syntactically valid JSON
text, contradicting the spec's invariant. Here the upstream supplies
`"arguments":"oops"` and the descriptor's arguments is exactly `oops`,
which `jsonParse` rejects. -/
theorem parseToolCalls_invalid_args_cex :
    parseToolCalls exC6G exC6Bad = some exC6Calls ∧
    jsonParse "oops".data = none := by
  constructor
  · decide
  · decide

/-- C6 (amended): for every tool-call descriptor produced by any of the
three detection strategies of `parseToolCalls` (`server.js:506-594`), the
`arguments` field is either the `JSON.stringify`-serialization of some
JSON value (covering the nested-object and absent cases, which default to
the empty object) or a string taken verbatim from the parsed upstream
payload (which need not itself be valid JSON text). -/
theorem parseToolCalls_arguments_shape (g : Nat → Str) (content : Str)
    (calls : List ToolCall) (h : parseToolCalls g content = some calls) :
    ∀ tc ∈ calls, ArgsProperty tc := by
  rw [parseToolCalls] at h
  split at h
  · exact Option.noConfusion h
  · split at h
    · obtain rfl := Option.some.inj h
      exact strategy1_props g content _ (by assumption)
    · split at h
      · obtain rfl := Option.some.inj h
        exact strategy2_props g content _ (by assumption)
      · exact strategy3_props g content calls h

/-- Witness for C6: the amended shape theorem applied to the concrete
payload `exC6Bad`. -/
theorem parseToolCalls_arguments_shape_witness :
    parseToolCalls exC6G exC6Bad = some exC6Calls ∧
    ArgsProperty ⟨Json.str "gid".data, Json.str "function".data,
      some (Json.str "f".data), "oops".data⟩ :=
  ⟨by decide,
    parseToolCalls_arguments_shape exC6G exC6Bad exC6Calls (by decide)
      _ (List.mem_singleton.mpr rfl)⟩

/-- C9: TTL eviction for `CleanupMap` (`server.js:145-176`). A key whose
last-access timestamp is strictly older than the configured max age at
sweep time is absent after the sweep; a key accessed within the window
keeps its value; `set` and a successful `get` refresh last-access to the
current time (so an access within the window makes the key survive the
next sweep). -/
theorem cleanupMap_ttl {K V : Type} [DecidableEq K] (m : CleanupMap K V)
    (k : K) (t now : Nat) (hacc : m.lastAccess k = some t) :
    (now - t > m.maxAgeMs → (m.cleanup now).data k = none) ∧
    (now - t ≤ m.maxAgeMs → (m.cleanup now).data k = m.data k) ∧
    (∀ v, (m.set k v now).lastAccess k = some now) ∧
    ((m.data k).isSome = true → ((m.get k now).2).lastAccess k = some now) := by
  refine ⟨?_, ?_, ?_, ?_⟩
  · intro hstale
    simp [CleanupMap.cleanup, hacc, hstale]
  · intro hfresh
    simp [CleanupMap.cleanup, hacc, Nat.not_lt.mpr hfresh]
  · intro v
    simp [CleanupMap.set]
  · intro hsome
    simp [CleanupMap.get, hsome]

/-- Concrete TTL store for the C9 witness: max age 100ms, key 0 holding
value 5 with last access at time 10. -/
def exC9Map : CleanupMap Nat Nat :=
  ⟨100, fun k => if k = 0 then some 5 else none,
        fun k => if k = 0 then some 10 else none⟩

/-- Witness for C9: the TTL theorem applied to the concrete store
`exC9Map` at sweep time 200 (190ms since last access, past the 100ms
window). -/
theorem cleanupMap_ttl_witness :
    exC9Map.lastAccess 0 = some 10 ∧
    ((200 - 10 > exC9Map.maxAgeMs → (exC9Map.cleanup 200).data 0 = none) ∧
     (200 - 10 ≤ exC9Map.maxAgeMs →
        (exC9Map.cleanup 200).data 0 = exC9Map.data 0) ∧
     (∀ v, (exC9Map.set 0 v 200).lastAccess 0 = some 200) ∧
     ((exC9Map.data 0).isSome = true →
        ((exC9Map.get 0 200).2).lastAccess 0 = some 200)) :=
  ⟨by decide, cleanupMap_ttl exC9Map 0 10 200 (by decide)⟩

/-- Whether a frame carries the model identifier `m` (the `[DONE]`
sentinel carries none and is exempt). -/
def frameModelOk (m : Str) : Frame → Bool
  | .contentDelta mf _ _ => mf == m
  | .errorUnit mf _ => mf == m
  | .toolStart mf _ _ _ _ _ _ => mf == m
  | .toolArgs mf _ _ => mf == m
  | .terminal mf _ => mf == m
  | .done => true
  | .nonStreamReply mf _ _ _ => mf == m

theorem sendContentChunk_models (model : Str) (s : AggState) (c : Str)
    (h : s.frames.all (frameModelOk model) = true) :
    (sendContentChunk model s c).frames.all (frameModelOk model) = true := by
  rw [sendContentChunk]
  split
  · exact h
  · simp [List.all_append, h, frameModelOk]

theorem procParsedLine_models (model : Str) (s : AggState) (p : Json)
    (h : s.frames.all (frameModelOk model) = true) :
    (procParsedLine model s p).frames.all (frameModelOk model) = true := by
  rw [procParsedLine]
  split
  · simp [List.all_append, h, frameModelOk]
  · split
    · exact h
    · split
      · split
        · exact h
        · exact sendContentChunk_models model _ _ h
      · split
        · exact h
        · exact sendContentChunk_models model _ _ h

theorem procRawLine_models (model : Str) (s : AggState) (l : Str)
    (h : s.frames.all (frameModelOk model) = true) :
    (procRawLine model s l).frames.all (frameModelOk model) = true := by
  rw [procRawLine]
  split
  · exact h
  · split
    · exact h
    · exact procParsedLine_models model _ _ h

theorem foldl_procRawLine_models (model : Str) (lines : List Str) (s : AggState)
    (h : s.frames.all (frameModelOk model) = true) :
    (lines.foldl (procRawLine model) s).frames.all (frameModelOk model) = true := by
  induction lines generalizing s with
  | nil => exact h
  | cons l ls ih => exact ih _ (procRawLine_models model s l h)

theorem procChunk_models (model : Str) (s : AggState) (c : Str)
    (h : s.frames.all (frameModelOk model) = true) :
    (procChunk model s c).frames.all (frameModelOk model) = true :=
  foldl_procRawLine_models model _ _ h

theorem runChunks_models (model : Str) (chunks : List Str) :
    (runChunks model chunks).frames.all (frameModelOk model) = true := by
  rw [runChunks]
  have aux : ∀ (cs : List Str) (s : AggState),
      s.frames.all (frameModelOk model) = true →
      (cs.foldl (procChunk model) s).frames.all (frameModelOk model) = true := by
    intro cs
    induction cs with
    | nil => intro s h; exact h
    | cons c cs ih => intro s h; exact ih _ (procChunk_models model s c h)
  exact aux chunks initAgg rfl

theorem toolCallFramesFrom_models (model : Str) :
    ∀ (first : Bool) (idx : Nat) (calls : List ToolCall),
      (toolCallFramesFrom model first idx calls).all (frameModelOk model) = true
  | _, _, [] => rfl
  | first, idx, tc :: rest => by
    rw [toolCallFramesFrom]
    simp only [List.all_append, List.all_cons, List.all_map, Bool.and_eq_true]
    refine ⟨⟨by simp [frameModelOk], ?_⟩,
      toolCallFramesFrom_models model false (idx + 1) rest⟩
    simp [frameModelOk, Function.comp]

theorem sendToolCallsStream_models (model : Str) (s : AggState) (calls : List ToolCall)
    (h : s.frames.all (frameModelOk model) = true) :
    (sendToolCallsStream model s calls).frames.all (frameModelOk model) = true := by
  rw [sendToolCallsStream]
  split
  · exact h
  · simp [List.all_append, h, toolCallFramesFrom_models model]

theorem procEndCore_models (model : Str) (s : AggState) (o : Option (List ToolCall))
    (h : s.frames.all (frameModelOk model) = true) :
    (procEndCore model s o).frames.all (frameModelOk model) = true := by
  match o with
  | some calls =>
    rw [procEndCore]
    split
    · simp [List.all_append, sendToolCallsStream_models model s calls h, frameModelOk]
    · split
      · simp [List.all_append, sendContentChunk_models model s _ h, frameModelOk]
      · simp [List.all_append, h, frameModelOk]
  | none =>
    rw [procEndCore]
    split
    · simp [List.all_append, sendContentChunk_models model s _ h, frameModelOk]
    · simp [List.all_append, h, frameModelOk]

theorem procEnd_models (model : Str) (g : Nat → Str) (s : AggState)
    (h : s.frames.all (frameModelOk model) = true) :
    (procEnd model g s).frames.all (frameModelOk model) = true :=
  procEndCore_models model s _ h

theorem sendSystemMessage_models (model : Str) (isStream : Bool) (content : Str) :
    (sendSystemMessage model isStream content).all (frameModelOk model) = true := by
  rw [sendSystemMessage]
  split <;> simp [frameModelOk]

theorem generationFrames_models (C : Collab) (model : Str) (isStream : Bool) :
    (generationFrames C model isStream).all (frameModelOk model) = true := by
  simp only [generationFrames]
  split
  · exact procEnd_models model C.g _ (runChunks_models model C.upstreamChunks)
  · split
    · split <;> simp [frameModelOk]
    · simp [frameModelOk]

theorem handleChat_models (C : Collab) (S : GatewayState) (req : ChatRequest)
    (nowMs : Nat) (presented : Str) :
    (handleChat C S req nowMs presented).frames.all
      (frameModelOk (if isFreeTime nowMs ∧ req.model ≠ freeModelId then freeModelId
        else req.model)) = true := by
  simp only [handleChat]
  split
  · exact sendSystemMessage_models _ _ _
  · split
    · exact sendSystemMessage_models _ _ _
    · split
      · split
        · exact sendSystemMessage_models _ _ _
        · exact generationFrames_models _ _ _
      · exact generationFrames_models _ _ _

/-- C10: the free-time model override (`server.js:713-718`, `isFreeTime`
at `server.js:448-458`).  Every frame of a `/v1/chat/completions`
response carries the effective model: the caller's model replaced by
`gpt-4o-2024-05-13` exactly when the request arrives in a Beijing-time
free period (Saturday or Sunday, or hour at or after 20:00 or before
08:00) and the requested model differs.  During a free period every
frame carries `gpt-4o-2024-05-13`; outside free periods every frame
carries the caller's model unchanged. -/
theorem free_time_model_override (C : Collab) (S : GatewayState) (req : ChatRequest)
    (nowMs : Nat) (presented : Str) :
    ((handleChat C S req nowMs presented).frames.all
      (frameModelOk (if isFreeTime nowMs ∧ req.model ≠ freeModelId then freeModelId
        else req.model)) = true) ∧
    (isFreeTime nowMs = true →
      (handleChat C S req nowMs presented).frames.all
        (frameModelOk freeModelId) = true) ∧
    (isFreeTime nowMs = false →
      (handleChat C S req nowMs presented).frames.all
        (frameModelOk req.model) = true) := by
  refine ⟨handleChat_models C S req nowMs presented, ?_, ?_⟩
  · intro hfree
    have h := handleChat_models C S req nowMs presented
    by_cases hm : req.model = freeModelId
    · simpa [hfree, hm] using h
    · simpa [hfree, hm] using h
  · intro hnot
    have h := handleChat_models C S req nowMs presented
    simpa [hnot] using h

/-- Concrete collaborator for the C10 witness. -/
def exC10C : Collab :=
  { loginResults := fun _ => "tok".data
    convId := "conv1".data
    upstreamChunks := []
    upstreamBody := Json.obj [("content".data, Json.str "hi".data)]
    g := fun _ => "gid".data }

/-- Concrete gateway state for the C10 witness: a cached token and an
existing conversation for it. -/
def exC10S : GatewayState :=
  { tokenStore := some "tokA".data
    convStore := [("tokA".data, "c0".data)] }

/-- Concrete non-streaming request for the C10 witness. -/
def exC10Req : ChatRequest :=
  { stream := false
    messages := [⟨"user".data, Json.str "hello".data⟩]
    model := "gpt-4o".data }

/-- Witness for C10: timestamp 43200000 (Beijing 20:00, a Thursday) is a
free period and every response frame then carries `gpt-4o-2024-05-13`;
timestamp 0 (Beijing 08:00, a Thursday) is not free and every frame
carries the requested `gpt-4o`. -/
theorem free_time_model_override_witness :
    isFreeTime 43200000 = true ∧ isFreeTime 0 = false ∧
    ((handleChat exC10C exC10S exC10Req 43200000 defaultKey).frames.all
      (frameModelOk freeModelId) = true) ∧
    ((handleChat exC10C exC10S exC10Req 0 defaultKey).frames.all
      (frameModelOk exC10Req.model) = true) :=
  ⟨by decide, by decide,
   (free_time_model_override exC10C exC10S exC10Req 43200000 defaultKey).2.1 (by decide),
   (free_time_model_override exC10C exC10S exC10Req 0 defaultKey).2.2 (by decide)⟩

/-- Login collaborator for the C4 schedule: distinct tokens per call. -/
def exC4Login : Nat → Str := fun n => if n = 0 then "tokA".data else "tokB".data

/-- Two concurrent requests at the store lookup with an empty token
slot. -/
def exC4Init : ConcState := ⟨none, 0, [.start, .start]⟩

/-- C4 (code bug): `authenticateToken` (`server.js:278-318`) has no
single-flight latch around `await loginAndGetToken()`.  Under the
interleaving in which both requests pass the empty-slot check before
either login resolves (schedule 0,1,0,1), two login calls are issued and
the two requests observe different tokens, refuting the claimed
exactly-one-login / same-token property. -/
theorem no_single_flight_bug :
    (runSched exC4Login exC4Init [0, 1, 0, 1]).loginCalls = 2 ∧
    (runSched exC4Login exC4Init [0, 1, 0, 1]).reqs =
      [.reqDone "tokA".data, .reqDone "tokB".data] ∧
    "tokA".data ≠ "tokB".data := by
  refine ⟨by decide, by decide, by decide⟩

/-- Collaborators for the C5 scenario: a fresh login token stands ready,
but the handler never asks for it. -/
def exC5C : Collab :=
  { loginResults := fun _ => "fresh".data
    convId := "c".data
    upstreamChunks := []
    upstreamBody := Json.null
    g := fun _ => "gid".data }

/-- Gateway state for the C5 scenario: a token is cached for the shared
default user. -/
def exC5S : GatewayState := ⟨some "tokA".data, []⟩

/-- Relogin request for the C5 scenario, presented with the
shared-default sentinel. -/
def exC5Req : ChatRequest :=
  ⟨false, [⟨"user".data, Json.str "login".data⟩], "gpt-4o".data⟩

/-- C5 (code bug): the relogin branch (`server.js:721-728`) compares
`req.mossToken` against the sentinel AFTER `authenticateToken` has
substituted the cached real token for it (`server.js:293-317`), so for a
sentinel caller with a cached token the eviction/re-login branch is
unreachable: no login call is made, the cached token is not evicted, and
the caller instead receives the "non-default key cannot re-login"
message with the real token leaked into it. -/
theorem relogin_eviction_unreachable_bug :
    shouldRelogin exC5Req.messages = true ∧
    (handleChat exC5C exC5S exC5Req 0 defaultKey).loginCalls = 0 ∧
    (handleChat exC5C exC5S exC5Req 0 defaultKey).tokenStore = some "tokA".data ∧
    (handleChat exC5C exC5S exC5Req 0 defaultKey).generationCalled = false ∧
    (handleChat exC5C exC5S exC5Req 0 defaultKey).frames =
      sendSystemMessage "gpt-4o".data false
        ("非默认key无法自动重登，请重新登录。".data ++ "tokA".data) := by
  refine ⟨by decide, by decide, by decide, by decide, by decide⟩

/-- Modelled from the spec: the reset decision is determined from the
latest USER message by exact match against the fixed reset
vocabulary. -/
def specShouldResetConversation (msgs : List Msg) : Bool :=
  match (msgs.filter (fun m => m.role = "user".data)).getLast? with
  | none => false
  | some m =>
    ["重置".data, "reset".data, "1".data].contains
      (jsTrim (formatMessageContent m.content))

/-- C7 counterexample: the code decides the reset from the FINAL message
of any role (`msgs[msgs.length-1]`, `server.js:436-441`), not the latest
user message: a user reset command followed by an assistant message is
not treated as a reset by the code, while the spec's latest-user-message
rule says it is. -/
theorem reset_latest_user_cex :
    shouldResetConversation
      [⟨"user".data, Json.str "重置".data⟩,
       ⟨"assistant".data, Json.str "ok".data⟩] = false ∧
    specShouldResetConversation
      [⟨"user".data, Json.str "重置".data⟩,
       ⟨"assistant".data, Json.str "ok".data⟩] = true := by
  refine ⟨by decide, by decide⟩

/-- C7 (amended): the reset scenario holds as claimed — a request whose
message list is exactly the user reset command `重置`, when the resolved
credential has no stored conversation, makes exactly one
conversation-creation call, stores the new identifier, replies with a
message naming it and never calls generation — but the reset decision is
determined by the FINAL message of the list regardless of role (last
conjunct), not by the latest user message. -/
theorem reset_command_behavior (C : Collab) (S : GatewayState) (stream : Bool)
    (mdl : Str) (nowMs : Nat) (presented : Str)
    (hconv : lookupStore S.convStore
      (authenticateToken (C.loginResults 0) S.tokenStore presented).1 = none) :
    (handleChat C S ⟨stream, [⟨"user".data, Json.str "重置".data⟩], mdl⟩
        nowMs presented).convCalls = 1 ∧
    (handleChat C S ⟨stream, [⟨"user".data, Json.str "重置".data⟩], mdl⟩
        nowMs presented).convStore =
      setStore S.convStore
        (authenticateToken (C.loginResults 0) S.tokenStore presented).1 C.convId ∧
    (handleChat C S ⟨stream, [⟨"user".data, Json.str "重置".data⟩], mdl⟩
        nowMs presented).generationCalled = false ∧
    (handleChat C S ⟨stream, [⟨"user".data, Json.str "重置".data⟩], mdl⟩
        nowMs presented).frames =
      sendSystemMessage
        (if isFreeTime nowMs ∧ mdl ≠ freeModelId then freeModelId else mdl) stream
        ("会话ID已失效，新的会话 ID: ".data ++ C.convId ++
          " 已创建 ，请重新提问~~".data) ∧
    (∀ (msgs : List Msg) (m : Msg),
      shouldResetConversation (msgs ++ [m]) = shouldResetConversation [m]) := by
  have hrel : shouldRelogin [⟨"user".data, Json.str "重置".data⟩] = false := by decide
  have hres : shouldResetConversation [⟨"user".data, Json.str "重置".data⟩] = true := by
    decide
  have hout : handleChat C S ⟨stream, [⟨"user".data, Json.str "重置".data⟩], mdl⟩
      nowMs presented =
      { frames := sendSystemMessage
          (if isFreeTime nowMs ∧ mdl ≠ freeModelId then freeModelId else mdl) stream
          ("会话ID已失效，新的会话 ID: ".data ++ C.convId ++
            " 已创建 ，请重新提问~~".data)
        tokenStore := (authenticateToken (C.loginResults 0) S.tokenStore presented).2.1
        convStore := setStore S.convStore
          (authenticateToken (C.loginResults 0) S.tokenStore presented).1 C.convId
        loginCalls := (authenticateToken (C.loginResults 0) S.tokenStore presented).2.2
        convCalls := 1
        generationCalled := false } := by
    simp only [handleChat, hrel, hres, hconv]
    simp
  refine ⟨by rw [hout], by rw [hout], by rw [hout], by rw [hout], ?_⟩
  intro msgs m
  rw [shouldResetConversation, shouldResetConversation, List.getLast?_concat]
  simp

/-- Collaborators for the C7 witness. -/
def exC7C : Collab :=
  { loginResults := fun _ => "tok".data
    convId := "newconv".data
    upstreamChunks := []
    upstreamBody := Json.null
    g := fun _ => "gid".data }

/-- Gateway state for the C7 witness: a cached token, no stored
conversation. -/
def exC7S : GatewayState := ⟨some "tokA".data, []⟩

/-- Witness for C7: the reset scenario at a concrete state with no
stored conversation. -/
theorem reset_command_behavior_witness :
    (lookupStore exC7S.convStore
      (authenticateToken (exC7C.loginResults 0) exC7S.tokenStore defaultKey).1 = none) ∧
    ((handleChat exC7C exC7S ⟨false, [⟨"user".data, Json.str "重置".data⟩],
        "gpt-4o".data⟩ 0 defaultKey).convCalls = 1 ∧
     (handleChat exC7C exC7S ⟨false, [⟨"user".data, Json.str "重置".data⟩],
        "gpt-4o".data⟩ 0 defaultKey).convStore =
       setStore exC7S.convStore
         (authenticateToken (exC7C.loginResults 0) exC7S.tokenStore defaultKey).1
         exC7C.convId ∧
     (handleChat exC7C exC7S ⟨false, [⟨"user".data, Json.str "重置".data⟩],
        "gpt-4o".data⟩ 0 defaultKey).generationCalled = false ∧
     (handleChat exC7C exC7S ⟨false, [⟨"user".data, Json.str "重置".data⟩],
        "gpt-4o".data⟩ 0 defaultKey).frames =
       sendSystemMessage
         (if isFreeTime 0 ∧ "gpt-4o".data ≠ freeModelId then freeModelId
           else "gpt-4o".data) false
         ("会话ID已失效，新的会话 ID: ".data ++ exC7C.convId ++
           " 已创建 ，请重新提问~~".data) ∧
     (∀ (msgs : List Msg) (m : Msg),
       shouldResetConversation (msgs ++ [m]) = shouldResetConversation [m])) :=
  ⟨by decide,
   reset_command_behavior exC7C exC7S false "gpt-4o".data 0 defaultKey (by decide)⟩

end Gateway
